/-
Verification of the memorit semantic-memory engine against its
natural-language specification.

This file contains a shallow embedding of the parts of the Go source that the
claims C1..C10 are about, together with theorems settling each claim.

Modelling conventions, applied uniformly:

* `core.ID` (a Go `uint64`) is modelled as `Nat`; well-formedness hypotheses
  add range bounds where the 64-bit width matters (big-endian key encodings).
* Go `time.Time` values are modelled as `Int` microseconds since the Unix
  epoch: that is the resolution of both the codec (which encodes times as
  signed microseconds) and of the date-index keys (`uint64(t.UnixMicro())`).
* `float32` vectors and scores are modelled over `ℚ`.  The constants 0.60,
  1.5, 1.2, 1.0 and 0.3 of the search code are exact in both `float32` and
  `ℚ`, and every claim under study concerns selection, comparison, ordering
  and arithmetic structure, not rounding.
* `core.IDFromContent` (BLAKE2b-64 of a string) is kept abstract as an
  explicit function argument `hash : String → Nat`; no claim depends on the
  value of the hash, only on it being a function of the string.
* Fallible Go functions return `Except`; a Go runtime panic is modelled as
  `Option.none` wrapped around the result.
* BadgerDB's transactional store is modelled as an explicit state record;
  `WithTx` commit-or-discard semantics become "return the new state on `ok`,
  return the original state on `error`".
* Badger iterators visit keys in ascending lexicographic byte order.  The
  composite index keys under study ("charecd:"/"charecc:") append fixed-width
  big-endian `uint64` blocks to a fixed prefix, and lexicographic order on
  equal-width big-endian blocks coincides with numeric order (the source
  comments state this is why big-endian is used), so the index key space is
  modelled as numerically ordered pairs.
-/

import Mathlib

deriving instance DecidableEq for Except

namespace Memorit

/-! ## Core data model (core/models.go) -/

/-- Reference from a chat record to a concept, with a per-reference
importance score (`core.ConceptRef`). -/
structure ConceptRef where
  conceptId : Nat
  importance : Int
deriving DecidableEq

/-- One chat message (`core.ChatRecord`).  Timestamps are Unix microseconds.
`speaker` follows the Go enum: Human = 1, AI = 2 (iota + 1); any other
value is invalid. -/
structure ChatRecord where
  id : Nat
  speaker : Int
  contents : String
  timestamp : Int
  insertedAt : Int
  updatedAt : Int
  concepts : List ConceptRef
  vector : List ℚ
  metadata : List (String × String)
deriving DecidableEq

/-- A concept extracted from chat records (`core.Concept`). -/
structure Concept where
  id : Nat
  name : String
  type : String
  vector : List ℚ
  insertedAt : Int
  updatedAt : Int
deriving DecidableEq

/-- Tuple string of a concept, `"(" + Type + "," + Name + ")"`
(`core.Concept.Tuple`). -/
def Concept.Tuple (c : Concept) : String :=
  "(" ++ c.type ++ "," ++ c.name ++ ")"

/-- Persisted processing marker (`core.Checkpoint`). -/
structure Checkpoint where
  processorType : String
  lastId : Nat
  updatedAt : Int
deriving DecidableEq

/-! ## Key schema (storage/badger/keys.go)

Primary chat keys are `"charec:" + decimal id`, so distinct ids give
distinct keys; the primary space is modelled as a list of records keyed by
`id`.  Date-index keys are `"charecd:" + be64(uint64(micros)) + be64(id)`;
a composite key is modelled as the pair of the two `uint64` components,
ordered lexicographically (which equals byte order of the key).  The Go
conversion `uint64(t.UnixMicro())` redues an `int64` two's-complement value
modulo 2^64. -/

/-- Value of `uint64(int64 micros)` used inside `makeChatDateKey` and
`makePartialChatDateKey`: two's-complement reduction modulo 2^64. -/
def ukey (t : Int) : Nat :=
  (t % (2 ^ 64 : Int)).toNat

/-- Concept tuple-index key, `"contyna:" + type + name`
(`makeConceptTupleKey`).  Note the two components are concatenated with no
separator. -/
def makeConceptTupleKey (name conceptType : String) : String :=
  "contyna:" ++ conceptType ++ name

/-- Checkpoint key, `processorType + ":chkpt"` (`makeCheckpointKey`). -/
def makeCheckpointKey (processorType : String) : String :=
  processorType ++ ":chkpt"

/-! ## Store state

One record models everything the claims touch of the BadgerDB key space:
chat primaries, the chat date index, the chat concept index, concept
primaries, the concept tuple index and checkpoints.  Index membership is a
set keyed as in the key schema; badger iterates keys sorted, so scans below
sort before iterating. -/

/-- State of the Badger-backed store. -/
structure BadgerState where
  chat : List ChatRecord
  dateIdx : List (Nat × Nat)
  conceptIdx : List (Nat × Nat)
  conceptPrimary : List Concept
  conceptTuple : List (String × Nat)
  checkpoints : List (String × Checkpoint)
deriving DecidableEq

/-- Store with no keys at all. -/
def emptyBadger : BadgerState :=
  ⟨[], [], [], [], [], []⟩

/-- Storage-layer error kinds (storage/errors.go); only the kinds the
modelled operations can produce. -/
inductive StoreErr where
  | notFound
  | io
deriving DecidableEq

/-- Read of a chat primary key (`readChatRecord`): `nil` on key-not-found. -/
def readChatRecord (st : BadgerState) (id : Nat) : Option ChatRecord :=
  st.chat.find? (fun r => r.id = id)

/-- Read of a concept primary key (`readConcept`). -/
def readConcept (st : BadgerState) (id : Nat) : Option Concept :=
  st.conceptPrimary.find? (fun c => c.id = id)

/-- Overwrite-or-insert of a chat primary key (`tx.Set` on
`makeChatRecordKey`). -/
def putChat (r : ChatRecord) (l : List ChatRecord) : List ChatRecord :=
  if l.any (fun x => x.id = r.id) then
    l.map (fun x => if x.id = r.id then r else x)
  else
    l ++ [r]

/-- Overwrite-or-insert of a set-like index key. -/
def putKey (k : Nat × Nat) (l : List (Nat × Nat)) : List (Nat × Nat) :=
  if k ∈ l then l else l ++ [k]

/-- Deletion of an index key (`tx.Delete`). -/
def delKey (k : Nat × Nat) (l : List (Nat × Nat)) : List (Nat × Nat) :=
  l.filter (fun e => e ≠ k)

/-! ## GetChatRecords (storage/badger/chat.go, claim C8) -/

/-- Batch point lookup (`ChatRepository.GetChatRecords`): reads each id in
request order inside one read transaction, appending only the records that
are present; absence is not an error. -/
def GetChatRecords (st : BadgerState) (ids : List Nat) : List ChatRecord :=
  match ids with
  | [] => []
  | id :: rest =>
    match readChatRecord st id with
    | some r => r :: GetChatRecords st rest
    | none => GetChatRecords st rest

theorem getChatRecords_eq_filterMap (st : BadgerState) (ids : List Nat) :
    GetChatRecords st ids = ids.filterMap (readChatRecord st) := by
  induction ids with
  | nil => rfl
  | cons id rest ih =>
    unfold GetChatRecords
    cases h : readChatRecord st id <;> simp [List.filterMap_cons, h, ih]

theorem readChatRecord_id (st : BadgerState) (i : Nat) (r : ChatRecord)
    (h : readChatRecord st i = some r) : r.id = i := by
  have := List.find?_some h
  simpa using of_decide_eq_true this

theorem readChatRecord_mem (st : BadgerState) (i : Nat) (r : ChatRecord)
    (h : readChatRecord st i = some r) : r ∈ st.chat :=
  List.mem_of_find?_eq_some h

/-- Claim C8: `GetChatRecords` returns, in the order of the requesting id
list, exactly the records whose ids are present; absent ids are silently
skipped and the relative order of present records is preserved.  Stated as:
the result is the request list filter-mapped through the point lookup, and
the returned ids are the requested ids filtered to the present ones. -/
theorem C8_getChatRecords_order_preserving (st : BadgerState) (ids : List Nat) :
    GetChatRecords st ids = ids.filterMap (readChatRecord st) ∧
    (GetChatRecords st ids).map ChatRecord.id =
      ids.filter (fun i => (readChatRecord st i).isSome) := by
  refine ⟨getChatRecords_eq_filterMap st ids, ?_⟩
  induction ids with
  | nil => rfl
  | cons id rest ih =>
    unfold GetChatRecords
    cases h : readChatRecord st id with
    | none => simpa [List.filter_cons, h] using ih
    | some r =>
      have hid := readChatRecord_id st id r h
      simp [List.filter_cons, h, hid, ih]

/-! ## DeleteChatRecords (storage/badger/chat.go, claim C9)

`Backend.WithTx` creates a transaction, defers `Discard`, and runs the
callback; the callback commits only as its last step, so any error returned
mid-batch discards every buffered write.  Modelled as: the loop threads a
tentative state; the wrapper returns the tentative state only on `ok` and
the original state on `error`. -/

/-- Removal of the concept-index entries of one record
(`deleteConceptIndex`): one `tx.Delete` per `ConceptRef`. -/
def deleteConceptIndex (record : ChatRecord) (idx : List (Nat × Nat)) :
    List (Nat × Nat) :=
  record.concepts.foldl
    (fun acc cref => delKey (cref.conceptId, record.id) acc) idx

/-- Body of the `DeleteChatRecords` transaction: per id, read the record
(`NotFound` aborts the whole transaction), then delete its date-index entry,
its concept-index entries and its primary key. -/
def DeleteChatRecordsLoop (st : BadgerState) (ids : List Nat) :
    Except StoreErr BadgerState :=
  match ids with
  | [] => .ok st
  | id :: rest =>
    match readChatRecord st id with
    | none => .error .notFound
    | some record =>
      let st1 : BadgerState :=
        { st with
          dateIdx := delKey (ukey record.timestamp, record.id) st.dateIdx,
          conceptIdx := deleteConceptIndex record st.conceptIdx,
          chat := st.chat.filter (fun r => r.id ≠ id) }
      DeleteChatRecordsLoop st1 rest

/-- `ChatRepository.DeleteChatRecords`: commit-or-discard wrapper around the
transaction body. -/
def DeleteChatRecords (st : BadgerState) (ids : List Nat) :
    Except StoreErr Unit × BadgerState :=
  match DeleteChatRecordsLoop st ids with
  | .ok st' => (.ok (), st')
  | .error e => (.error e, st)

theorem delete_step_preserves_absent (st : BadgerState) (record : ChatRecord)
    (id i : Nat) (h : readChatRecord st i = none) :
    readChatRecord
      { st with
        dateIdx := delKey (ukey record.timestamp, record.id) st.dateIdx,
        conceptIdx := deleteConceptIndex record st.conceptIdx,
        chat := st.chat.filter (fun r => r.id ≠ id) } i = none := by
  simp only [readChatRecord, List.find?_eq_none] at h ⊢
  intro r hr
  exact h r (List.mem_of_mem_filter hr)

theorem deleteLoop_error_of_absent (ids : List Nat) :
    ∀ (st : BadgerState), (∃ i ∈ ids, readChatRecord st i = none) →
      DeleteChatRecordsLoop st ids = .error .notFound := by
  induction ids with
  | nil => rintro st ⟨i, hi, -⟩; cases hi
  | cons id rest ih =>
    rintro st ⟨i, hi, habs⟩
    unfold DeleteChatRecordsLoop
    cases hmem : List.mem_cons.mp hi with
    | inl heq =>
      subst heq
      rw [habs]
    | inr htail =>
      cases hread : readChatRecord st id with
      | none => rfl
      | some record =>
        exact ih _ ⟨i, htail, delete_step_preserves_absent st record id i habs⟩

/-- Claim C9: `DeleteChatRecords` is atomic over the whole batch.  If any
requested id is absent, the call fails with `NotFound` and the store —
primary records, date-index and concept-index entries included — is exactly
the pre-call store; moreover the store is unchanged whenever any error is
returned. -/
theorem C9_deleteChatRecords_atomic (st : BadgerState) (ids : List Nat)
    (h : ∃ i ∈ ids, readChatRecord st i = none) :
    (DeleteChatRecords st ids).1 = .error .notFound ∧
    (DeleteChatRecords st ids).2 = st ∧
    (∀ e, (DeleteChatRecords st ids).1 = .error e →
      (DeleteChatRecords st ids).2 = st) := by
  have herr := deleteLoop_error_of_absent ids st h
  refine ⟨?_, ?_, ?_⟩ <;> simp [DeleteChatRecords, herr]

/-- Concrete run of C9: deleting `[1, 2]` from a store holding only record 1
fails with `NotFound` and leaves the store (including record 1 and its index
entries) untouched. -/
theorem C9_deleteChatRecords_atomic_witness :
    (∃ i ∈ [1, 2],
        readChatRecord
          { emptyBadger with
            chat := [⟨1, 1, "hello", 5, 5, 5, [⟨7, 3⟩], [], []⟩],
            dateIdx := [(5, 1)], conceptIdx := [(7, 1)] } i = none) ∧
      (DeleteChatRecords
          { emptyBadger with
            chat := [⟨1, 1, "hello", 5, 5, 5, [⟨7, 3⟩], [], []⟩],
            dateIdx := [(5, 1)], conceptIdx := [(7, 1)] } [1, 2]).2 =
        { emptyBadger with
          chat := [⟨1, 1, "hello", 5, 5, 5, [⟨7, 3⟩], [], []⟩],
          dateIdx := [(5, 1)], conceptIdx := [(7, 1)] } := by
  refine ⟨⟨2, by decide, by decide⟩, ?_⟩
  exact (C9_deleteChatRecords_atomic _ [1, 2] ⟨2, by decide, by decide⟩).2.1

/-! ## FindSimilar (storage/badger/backend.go, claim C6)

The scan iterates every key with byte prefix "charec" and explicitly skips
the sequence key ("charecseq") and the date/concept index prefixes
("charecd:", "charecc:"), so exactly the primary chat records are decoded
and scored.  The model therefore scans `st.chat`.  `slices.SortFunc` is not
a stable sort and the pre-sort collection order (primary keys in
lexicographic order of their decimal-id suffix) only influences the order
among equal scores, which no claim pins down; the model fixes one
deterministic refinement via a stable insertion sort. -/

/-- Inner product over the minimum of the two lengths (`dotProduct`);
`List.zip` truncates to the shorter argument exactly as the Go loop bound
`min(len(a), len(b))` does. -/
def dotProduct (a b : List ℚ) : ℚ :=
  ((a.zip b).map (fun p => p.1 * p.2)).sum

/-- Comparison used to sort search results: descending by score. -/
def byScoreDesc (a b : ChatRecord × ℚ) : Prop :=
  b.2 ≤ a.2

instance : DecidableRel byScoreDesc := fun a b => by
  unfold byScoreDesc; infer_instance

instance : IsTotal (ChatRecord × ℚ) byScoreDesc :=
  ⟨fun a b => le_total b.2 a.2⟩

instance : IsTrans (ChatRecord × ℚ) byScoreDesc :=
  ⟨fun _ _ _ hab hbc => le_trans hbc hab⟩

/-- Vector-similarity scan (`Backend.FindSimilar`): skip records with an
empty vector, score the rest by inner product with the query vector, keep
scores `≥ minSimilarity`, sort descending by score, truncate to `limit`. -/
def FindSimilar (st : BadgerState) (vector : List ℚ) (minSimilarity : ℚ)
    (limit : Nat) : List (ChatRecord × ℚ) :=
  let results := st.chat.filterMap (fun record =>
    if record.vector = [] then none
    else
      let similarity := dotProduct vector record.vector
      if minSimilarity ≤ similarity then some (record, similarity) else none)
  (results.insertionSort byScoreDesc).take limit

/-- Predicate "this stored record is scored and kept" of the scan. -/
def qualifies (vector : List ℚ) (minSimilarity : ℚ) (r : ChatRecord) : Prop :=
  r.vector ≠ [] ∧ minSimilarity ≤ dotProduct vector r.vector

instance (vector : List ℚ) (minSimilarity : ℚ) :
    DecidablePred (qualifies vector minSimilarity) := fun r => by
  unfold qualifies; infer_instance

theorem findSimilar_pre_sort (st : BadgerState) (vector : List ℚ)
    (minSimilarity : ℚ) :
    st.chat.filterMap (fun record =>
      if record.vector = [] then none
      else
        let similarity := dotProduct vector record.vector
        if minSimilarity ≤ similarity then some (record, similarity)
        else none) =
    (st.chat.filter (fun r => decide (qualifies vector minSimilarity r))).map
      (fun r => (r, dotProduct vector r.vector)) := by
  induction st.chat with
  | nil => rfl
  | cons r rest ih =>
    by_cases hv : r.vector = [] <;>
      by_cases hs : minSimilarity ≤ dotProduct vector r.vector <;>
        simp [List.filterMap_cons, List.filter_cons, qualifies, hv, hs, ih]

/-- Claim C6: the scan returns exactly the (record, score) pairs of stored
records with a non-empty vector whose inner product with the query vector
(over the minimum of the two lengths) reaches the threshold, sorted
descending by score and truncated to `limit`; `limit = 0` yields the empty
list, and when no truncation is needed the result is a permutation of all
qualifying pairs. -/
theorem C6_findSimilar_spec (st : BadgerState) (vector : List ℚ)
    (minSimilarity : ℚ) (limit : Nat) :
    (∀ p ∈ FindSimilar st vector minSimilarity limit,
        p.1 ∈ st.chat ∧ p.1.vector ≠ [] ∧
        p.2 = dotProduct vector p.1.vector ∧ minSimilarity ≤ p.2) ∧
    (FindSimilar st vector minSimilarity limit).Sorted byScoreDesc ∧
    (FindSimilar st vector minSimilarity limit).length =
      min limit
        (st.chat.filter
          (fun r => decide (qualifies vector minSimilarity r))).length ∧
    (limit = 0 → FindSimilar st vector minSimilarity limit = []) ∧
    ((st.chat.filter
        (fun r => decide (qualifies vector minSimilarity r))).length ≤ limit →
      (FindSimilar st vector minSimilarity limit).Perm
        ((st.chat.filter
            (fun r => decide (qualifies vector minSimilarity r))).map
          (fun r => (r, dotProduct vector r.vector)))) := by
  have hpre := findSimilar_pre_sort st vector minSimilarity
  refine ⟨?_, ?_, ?_, ?_, ?_⟩
  · intro p hp
    have hmem : p ∈ (st.chat.filter
        (fun r => decide (qualifies vector minSimilarity r))).map
          (fun r => (r, dotProduct vector r.vector)) := by
      have h1 := List.mem_of_mem_take hp
      rw [FindSimilar] at hp
      have h2 := (List.mem_insertionSort byScoreDesc).mp (List.mem_of_mem_take hp)
      rwa [hpre] at h2
    obtain ⟨r, hr, hpr⟩ := List.mem_map.mp hmem
    obtain ⟨hrmem, hq⟩ := List.mem_filter.mp hr
    have hq' : qualifies vector minSimilarity r := of_decide_eq_true hq
    subst hpr
    exact ⟨hrmem, hq'.1, rfl, hq'.2⟩
  · exact List.Pairwise.sublist (List.take_sublist _ _)
      (List.sorted_insertionSort byScoreDesc _)
  · rw [FindSimilar, List.length_take, List.length_insertionSort, hpre,
      List.length_map]
  · intro h; rw [FindSimilar, h, List.take_zero]
  · intro hle
    rw [FindSimilar, List.take_of_length_le]
    · exact (List.perm_insertionSort byScoreDesc _).trans (by rw [hpre])
    · rw [List.length_insertionSort, hpre, List.length_map]; exact hle

/-- Concrete run of C6 on two stored records (one above, one below the
threshold), with `limit = 2` and with `limit = 0`, applying the general
theorem and discharging its inner antecedents there. -/
theorem C6_findSimilar_spec_witness :
    (FindSimilar
        { emptyBadger with
          chat := [⟨1, 1, "a", 0, 0, 0, [], [(9 : ℚ)/10], []⟩,
                   ⟨2, 1, "b", 0, 0, 0, [], [(1 : ℚ)/10], []⟩] }
        [1] (3/5) 2).Perm
      [(⟨1, 1, "a", 0, 0, 0, [], [(9 : ℚ)/10], []⟩, (9 : ℚ)/10)] ∧
    FindSimilar
        { emptyBadger with
          chat := [⟨1, 1, "a", 0, 0, 0, [], [(9 : ℚ)/10], []⟩] }
        [1] (3/5) 0 = [] := by
  constructor
  · have h := (C6_findSimilar_spec
      { emptyBadger with
        chat := [⟨1, 1, "a", 0, 0, 0, [], [(9 : ℚ)/10], []⟩,
                 ⟨2, 1, "b", 0, 0, 0, [], [(1 : ℚ)/10], []⟩] }
      [1] (3/5) 2).2.2.2.2
      (by norm_num [emptyBadger, List.filter, qualifies, dotProduct])
    refine h.trans ?_
    rw [show ((({ emptyBadger with
        chat := [⟨1, 1, "a", 0, 0, 0, [], [(9 : ℚ)/10], []⟩,
                 ⟨2, 1, "b", 0, 0, 0, [], [(1 : ℚ)/10], []⟩] } :
        BadgerState).chat.filter
          (fun r => decide (qualifies [1] (3/5) r))).map
        (fun r => (r, dotProduct [1] r.vector))) =
      [(⟨1, 1, "a", 0, 0, 0, [], [(9 : ℚ)/10], []⟩, (9 : ℚ)/10)] from by
        norm_num [emptyBadger, List.filter, qualifies, dotProduct]]
  · exact (C6_findSimilar_spec
      { emptyBadger with
        chat := [⟨1, 1, "a", 0, 0, 0, [], [(9 : ℚ)/10], []⟩] }
      [1] (3/5) 0).2.2.2.1 rfl

/-! ## GetChatRecordsByDateRange (storage/badger/chat.go, claim C5)

The scan seeks the iterator to the partial key `"charecd:" + be64(startU)`
and breaks at the first key strictly greater than the partial key
`"charecd:" + be64(endU)`, where `startU`/`endU` are
`uint64(t.UnixMicro())` of the two bounds.  On the sorted key space this
collects exactly the full date keys `"charecd:" + be64(m) + be64(id)` with
`startU ≤ m` (at or after the seek target) and `m < endU` (a full key with
`m = endU` strictly extends the partial end key and is therefore greater,
so it already triggers the break); keys of the other families
("charec:", "charecc:" sort before the window, "charecseq" and the concept
families after it) never land strictly inside it.  Each collected index
value is a record id, resolved through the primary key and skipped when
absent. -/

/-- Lexicographic order of two date-index keys, equal to byte order of the
corresponding `be64(m) + be64(id)` blocks. -/
def dateKeyLe (a b : Nat × Nat) : Prop :=
  a.1 < b.1 ∨ (a.1 = b.1 ∧ a.2 ≤ b.2)

instance : DecidableRel dateKeyLe := fun a b => by
  unfold dateKeyLe; infer_instance

instance : IsTotal (Nat × Nat) dateKeyLe :=
  ⟨fun a b => by unfold dateKeyLe; omega⟩

instance : IsTrans (Nat × Nat) dateKeyLe :=
  ⟨fun _ _ _ hab hbc => by unfold dateKeyLe at *; omega⟩

/-- Date-range scan (`ChatRepository.GetChatRecordsByDateRange`): when
`start == end` the upper bound becomes `start + 1µs`; the date index is
iterated in key order between the two partial keys (inclusive lower,
exclusive upper at the key level), and each hit's id is resolved through
the primary record key, skipping ids whose primary is absent. -/
def GetChatRecordsByDateRange (st : BadgerState) (start endT : Int) :
    List ChatRecord :=
  ((st.dateIdx.insertionSort dateKeyLe).filter
      (fun e => decide (ukey start ≤ e.1 ∧
        e.1 < ukey (if start = endT then start + 1 else endT)))).filterMap
    (fun e => readChatRecord st e.2)

/-- Well-formedness used by the chat-store claims: distinct record ids. -/
def ChatIdsNodup (st : BadgerState) : Prop :=
  (st.chat.map ChatRecord.id).Nodup

instance (st : BadgerState) : Decidable (ChatIdsNodup st) := by
  unfold ChatIdsNodup; infer_instance

/-- Date-index consistency (spec invariant 3): the date index holds exactly
one entry `(ukey timestamp, id)` per live record. -/
def DateIdxWF (st : BadgerState) : Prop :=
  ChatIdsNodup st ∧ st.dateIdx.Nodup ∧
  ∀ e, e ∈ st.dateIdx ↔ ∃ r ∈ st.chat, e = (ukey r.timestamp, r.id)

theorem dateIdxWF_iff (st : BadgerState) :
    DateIdxWF st ↔ ChatIdsNodup st ∧ st.dateIdx.Nodup ∧
      (∀ e ∈ st.dateIdx, e ∈ st.chat.map (fun r => (ukey r.timestamp, r.id))) ∧
      (∀ e ∈ st.chat.map (fun r => (ukey r.timestamp, r.id)),
        e ∈ st.dateIdx) := by
  unfold DateIdxWF
  refine and_congr_right fun _ => and_congr_right fun _ => ?_
  constructor
  · intro h
    constructor
    · intro e he
      obtain ⟨r, hr, heq⟩ := (h e).mp he
      exact List.mem_map.mpr ⟨r, hr, heq.symm⟩
    · intro e he
      obtain ⟨r, hr, heq⟩ := List.mem_map.mp he
      exact (h e).mpr ⟨r, hr, heq.symm⟩
  · intro h e
    constructor
    · intro he
      obtain ⟨r, hr, heq⟩ := List.mem_map.mp (h.1 e he)
      exact ⟨r, hr, heq.symm⟩
    · rintro ⟨r, hr, heq⟩
      exact h.2 e (List.mem_map.mpr ⟨r, hr, heq.symm⟩)

theorem find?_eq_some_of_nodup_ids (l : List ChatRecord) (r : ChatRecord)
    (hnd : (l.map ChatRecord.id).Nodup) (hr : r ∈ l) :
    l.find? (fun x => x.id = r.id) = some r := by
  induction l with
  | nil => cases hr
  | cons a tl ih =>
    rw [List.map_cons, List.nodup_cons] at hnd
    rcases List.mem_cons.mp hr with heq | htail
    · subst heq; simp [List.find?_cons]
    · have hane : ¬(a.id = r.id) := by
        intro hid
        exact hnd.1 (hid ▸ List.mem_map_of_mem ChatRecord.id htail)
      rw [List.find?_cons]
      simp only [hane, decide_eq_true_eq, if_neg]
      exact ih hnd.2 htail

theorem readChatRecord_of_mem (st : BadgerState) (r : ChatRecord)
    (hnd : ChatIdsNodup st) (hr : r ∈ st.chat) :
    readChatRecord st r.id = some r :=
  find?_eq_some_of_nodup_ids st.chat r hnd hr

theorem ukey_of_bounds (t : Int) (h0 : 0 ≤ t) (h1 : t < 2 ^ 64) :
    ukey t = t.toNat := by
  unfold ukey
  rw [Int.emod_eq_of_lt h0 h1]

/-- Claim C5, amended to times at or after the Unix epoch: for
`0 ≤ start ≤ end < 2^63` (the `int64`-microsecond range) and a store whose
records carry epoch-representable timestamps, the scan returns exactly the
live records with `start ≤ timestamp < end` — treating `end` as
`start + 1µs` when `start = end`, so `by_date_range(t, t)` returns the
records with timestamp exactly `t` — in ascending timestamp order.
(The unamended claim quantifies over all times; it fails for pre-epoch
bounds because `uint64(t.UnixMicro())` wraps negative microseconds to huge
key values, see the counterexample.) -/
theorem C5_byDateRange_amended (st : BadgerState) (start endT : Int)
    (hwf : DateIdxWF st)
    (hts : ∀ r ∈ st.chat, 0 ≤ r.timestamp ∧ r.timestamp < 2 ^ 63)
    (h0 : 0 ≤ start) (hse : start ≤ endT) (hend : endT < 2 ^ 63) :
    (GetChatRecordsByDateRange st start endT).Perm
      (st.chat.filter (fun r =>
        decide (start ≤ r.timestamp ∧
          r.timestamp < (if start = endT then start + 1 else endT)))) ∧
    (GetChatRecordsByDateRange st start endT).Sorted
      (fun a b => a.timestamp ≤ b.timestamp) := by
  obtain ⟨hnd, hidxnd, hidx⟩ := hwf
  have hendA0 : (0 : Int) ≤ (if start = endT then start + 1 else endT) := by
    split <;> omega
  have hendA64 : (if start = endT then start + 1 else endT) < 2 ^ 64 := by
    split <;> omega
  have hstart64 : start < 2 ^ 64 := by omega
  have hus : ukey start = start.toNat := ukey_of_bounds start h0 hstart64
  have hue : ukey (if start = endT then start + 1 else endT) =
      (if start = endT then start + 1 else endT).toNat :=
    ukey_of_bounds _ hendA0 hendA64
  -- the range test on index keys coincides with the range test on times
  have hkey_iff : ∀ r ∈ st.chat,
      ((ukey start ≤ ukey r.timestamp ∧
        ukey r.timestamp < ukey (if start = endT then start + 1 else endT)) ↔
        (start ≤ r.timestamp ∧
          r.timestamp < (if start = endT then start + 1 else endT))) := by
    intro r hr
    obtain ⟨hr0, hr63⟩ := hts r hr
    rw [hus, hue, ukey_of_bounds r.timestamp hr0 (by omega)]
    omega
  -- membership characterisation of the scan result
  have hmem : ∀ r, r ∈ GetChatRecordsByDateRange st start endT ↔
      (r ∈ st.chat ∧ start ≤ r.timestamp ∧
        r.timestamp < (if start = endT then start + 1 else endT)) := by
    intro r
    unfold GetChatRecordsByDateRange
    rw [List.mem_filterMap]
    constructor
    · rintro ⟨e, he, hread⟩
      have hrange := of_decide_eq_true (List.mem_filter.mp he).2
      have hein := (List.mem_insertionSort dateKeyLe).mp
        (List.mem_of_mem_filter he)
      obtain ⟨r', hr', heq⟩ := (hidx e).mp hein
      subst heq
      rw [readChatRecord_of_mem st r' hnd hr'] at hread
      injection hread with hrr
      subst hrr
      exact ⟨hr', (hkey_iff r' hr').mp hrange⟩
    · rintro ⟨hr, hrange⟩
      refine ⟨(ukey r.timestamp, r.id), List.mem_filter.mpr ⟨?_, ?_⟩, ?_⟩
      · exact (List.mem_insertionSort dateKeyLe).mpr
          ((hidx _).mpr ⟨r, hr, rfl⟩)
      · exact decide_eq_true ((hkey_iff r hr).mpr hrange)
      · exact readChatRecord_of_mem st r hnd hr
  -- entries of the index determine their record uniquely
  have hentry_rec : ∀ e ∈ st.dateIdx, ∀ r,
      readChatRecord st e.2 = some r →
        r ∈ st.chat ∧ e = (ukey r.timestamp, r.id) := by
    intro e hein r hread
    obtain ⟨r', hr', heq⟩ := (hidx e).mp hein
    subst heq
    rw [readChatRecord_of_mem st r' hnd hr'] at hread
    cases hread
    exact ⟨hr', rfl⟩
  -- the scan result has no duplicates
  have hnodup_res : (GetChatRecordsByDateRange st start endT).Nodup := by
    unfold GetChatRecordsByDateRange
    have hsorted_nd : ((st.dateIdx.insertionSort dateKeyLe).filter
        (fun e => decide (ukey start ≤ e.1 ∧
          e.1 < ukey (if start = endT then start + 1 else endT)))).Nodup :=
      ((List.perm_insertionSort dateKeyLe st.dateIdx).nodup_iff.mpr
        hidxnd).filter _
    have hpw := List.Pairwise.and_mem.mp hsorted_nd
    refine List.Pairwise.filterMap (fun e => readChatRecord st e.2) ?_ hpw
    rintro e e' ⟨hein, hein', hne⟩ x hx y hy
    have hein2 : e ∈ st.dateIdx :=
      (List.mem_insertionSort dateKeyLe).mp (List.mem_of_mem_filter hein)
    have hein2' : e' ∈ st.dateIdx :=
      (List.mem_insertionSort dateKeyLe).mp (List.mem_of_mem_filter hein')
    obtain ⟨hxmem, hex⟩ := hentry_rec e hein2 x (by simpa using hx)
    obtain ⟨hymem, hey⟩ := hentry_rec e' hein2' y (by simpa using hy)
    intro hxy
    subst hxy
    exact hne (hex.trans hey.symm)
  -- the filtered store list has no duplicates either
  have hnodup_filter : (st.chat.filter (fun r =>
      decide (start ≤ r.timestamp ∧
        r.timestamp < (if start = endT then start + 1 else endT)))).Nodup := by
    have hchat_nd : st.chat.Nodup := by
      unfold ChatIdsNodup at hnd
      exact hnd.of_map
    exact hchat_nd.filter _
  constructor
  · rw [List.perm_ext_iff_of_nodup hnodup_res hnodup_filter]
    intro r
    rw [hmem r, List.mem_filter]
    simp
  · -- sortedness: index keys are ordered by timestamp block first
    unfold GetChatRecordsByDateRange
    have hsorted : ((st.dateIdx.insertionSort dateKeyLe).filter
        (fun e => decide (ukey start ≤ e.1 ∧
          e.1 < ukey (if start = endT then start + 1 else endT)))).Pairwise
          dateKeyLe :=
      (List.sorted_insertionSort dateKeyLe st.dateIdx).filter _
    have hpw := List.Pairwise.and_mem.mp hsorted
    refine List.Pairwise.filterMap (fun e => readChatRecord st e.2) ?_ hpw
    rintro e e' ⟨hein, hein', hle⟩ x hx y hy
    have hein2 : e ∈ st.dateIdx :=
      (List.mem_insertionSort dateKeyLe).mp (List.mem_of_mem_filter hein)
    have hein2' : e' ∈ st.dateIdx :=
      (List.mem_insertionSort dateKeyLe).mp (List.mem_of_mem_filter hein')
    obtain ⟨hxmem, hex⟩ := hentry_rec e hein2 x (by simpa using hx)
    obtain ⟨hymem, hey⟩ := hentry_rec e' hein2' y (by simpa using hy)
    obtain ⟨hx0, hx63⟩ := hts x hxmem
    obtain ⟨hy0, hy63⟩ := hts y hymem
    have hkx : ukey x.timestamp = x.timestamp.toNat :=
      ukey_of_bounds _ hx0 (by omega)
    have hky : ukey y.timestamp = y.timestamp.toNat :=
      ukey_of_bounds _ hy0 (by omega)
    have h1 : e.1 = ukey x.timestamp := by rw [hex]
    have h2 : e'.1 = ukey y.timestamp := by rw [hey]
    unfold dateKeyLe at hle
    rw [h1, h2, hkx, hky] at hle
    omega

/-- Concrete run of the amended C5: querying `[5, 5]` against a store with
records at microseconds 4, 5 and 6 returns exactly the record with
timestamp 5. -/
theorem C5_byDateRange_amended_witness :
    (GetChatRecordsByDateRange
        { emptyBadger with
          chat := [⟨1, 1, "a", 4, 0, 0, [], [], []⟩,
                   ⟨2, 1, "b", 5, 0, 0, [], [], []⟩,
                   ⟨3, 1, "c", 6, 0, 0, [], [], []⟩],
          dateIdx := [(4, 1), (5, 2), (6, 3)] } 5 5).Perm
      [⟨2, 1, "b", 5, 0, 0, [], [], []⟩] := by
  have h := (C5_byDateRange_amended
    { emptyBadger with
      chat := [⟨1, 1, "a", 4, 0, 0, [], [], []⟩,
               ⟨2, 1, "b", 5, 0, 0, [], [], []⟩,
               ⟨3, 1, "c", 6, 0, 0, [], [], []⟩],
      dateIdx := [(4, 1), (5, 2), (6, 3)] } 5 5
    ((dateIdxWF_iff _).mpr (by decide))
    (by decide) (by decide) (by decide) (by decide)).1
  refine h.trans ?_
  rw [show (({ emptyBadger with
      chat := [⟨1, 1, "a", 4, 0, 0, [], [], []⟩,
               ⟨2, 1, "b", 5, 0, 0, [], [], []⟩,
               ⟨3, 1, "c", 6, 0, 0, [], [], []⟩],
      dateIdx := [(4, 1), (5, 2), (6, 3)] } : BadgerState).chat.filter
        (fun r => decide ((5 : Int) ≤ r.timestamp ∧
          r.timestamp < (if (5 : Int) = 5 then 5 + 1 else 5)))) =
    [⟨2, 1, "b", 5, 0, 0, [], [], []⟩] from by decide]

/-- Counterexample to claim C5 as stated: for the pre-epoch lower bound
`start = -1µs` and `end = 1µs`, a store holding exactly one record with
timestamp `0` (which satisfies `start ≤ 0 < end`) yields an empty scan,
because `uint64((-1).UnixMicro())` wraps to `2^64 - 1` and the key window
becomes empty. -/
theorem C5_byDateRange_counterexample :
    GetChatRecordsByDateRange
        { emptyBadger with
          chat := [⟨1, 1, "a", 0, 0, 0, [], [], []⟩],
          dateIdx := [(0, 1)] } (-1) 1 = [] ∧
    ({ emptyBadger with
        chat := [⟨1, 1, "a", 0, 0, 0, [], [], []⟩],
        dateIdx := [(0, 1)] } : BadgerState).chat.filter
      (fun r => decide ((-1 : Int) ≤ r.timestamp ∧ r.timestamp < 1)) =
      [⟨1, 1, "a", 0, 0, 0, [], [], []⟩] := by
  constructor <;> decide

/-! ## Concept store (storage/badger/concept.go, claim C3)

`core.IDFromContent` is BLAKE2b-64 of the tuple string; it is kept abstract
as the argument `hash`, since no claim depends on hash values. -/

/-- Read of the concept tuple index (`tx.Get` on `makeConceptTupleKey`). -/
def lookupTupleKey (st : BadgerState) (key : String) : Option Nat :=
  (st.conceptTuple.find? (fun e => e.1 = key)).map (fun e => e.2)

/-- Overwrite-or-insert of a concept tuple-index key. -/
def putTupleKey (key : String) (v : Nat) (l : List (String × Nat)) :
    List (String × Nat) :=
  if l.any (fun e => e.1 = key) then
    l.map (fun e => if e.1 = key then (key, v) else e)
  else
    l ++ [(key, v)]

/-- Overwrite-or-insert of a concept primary key. -/
def putConcept (c : Concept) (l : List Concept) : List Concept :=
  if l.any (fun x => x.id = c.id) then
    l.map (fun x => if x.id = c.id then c else x)
  else
    l ++ [c]

/-- `ConceptRepository.AddConcepts`: per concept, derive the content-based
id when `id == 0`, stamp the times, write the primary record and the tuple
index entry, all in one committed transaction. -/
def AddConcepts (hash : String → Nat) (now : Int) (st : BadgerState)
    (concepts : List Concept) : List Concept × BadgerState :=
  match concepts with
  | [] => ([], st)
  | c :: rest =>
    let cid := if c.id = 0 then hash c.Tuple else c.id
    let c' : Concept :=
      { c with id := cid, insertedAt := now, updatedAt := now }
    let st' : BadgerState :=
      { st with
        conceptPrimary := putConcept c' st.conceptPrimary,
        conceptTuple :=
          putTupleKey (makeConceptTupleKey c'.name c'.type) c'.id
            st.conceptTuple }
    let res := AddConcepts hash now st' rest
    (c' :: res.1, res.2)

/-- `ConceptRepository.FindConceptByNameAndType`: resolve the tuple-index
key to an id, then read the primary record; `NotFound` when either read
misses. -/
def FindConceptByNameAndType (st : BadgerState) (name conceptType : String) :
    Except StoreErr Concept :=
  match lookupTupleKey st (makeConceptTupleKey name conceptType) with
  | none => .error .notFound
  | some cid =>
    match readConcept st cid with
    | none => .error .notFound
    | some c => .ok c

/-- `ConceptRepository.GetOrCreateConcept`: find by tuple; on `NotFound`
construct the content-addressed concept and add it.  The source's
add-failure retry branch (for a concurrent writer) cannot trigger in the
sequential model, where `AddConcepts` has no failure path. -/
def GetOrCreateConcept (hash : String → Nat) (now : Int) (st : BadgerState)
    (name conceptType : String) (vector : List ℚ) : Concept × BadgerState :=
  match FindConceptByNameAndType st name conceptType with
  | .ok c => (c, st)
  | .error _ =>
    let newC : Concept :=
      { id := hash ("(" ++ conceptType ++ "," ++ name ++ ")"),
        name := name, type := conceptType, vector := vector,
        insertedAt := 0, updatedAt := 0 }
    match AddConcepts hash now st [newC] with
    | (a :: _, st') => (a, st')
    | ([], st') => (newC, st')

/-- Claim C3 fails on the code: `makeConceptTupleKey` concatenates
`"contyna:" + type + name` with no separator, so the requests
`("b", "ca")` and `("ab", "c")` share the index key `"contyna:cab"`.
Starting from the empty store, `get_or_create("b", "ca", v)` creates the
concept, and the subsequent `get_or_create("ab", "c", w)` — for every
possible id-hash function — resolves the colliding key and returns the
stored concept, whose `(name, type)` is `("b", "ca")`, not the requested
`("ab", "c")`. -/
theorem C3_getOrCreateConcept_tuple_mismatch (hash : String → Nat)
    (now1 now2 : Int) (v1 v2 : List ℚ) :
    ((GetOrCreateConcept hash now2
        (GetOrCreateConcept hash now1 emptyBadger "b" "ca" v1).2
        "ab" "c" v2).1.name,
     (GetOrCreateConcept hash now2
        (GetOrCreateConcept hash now1 emptyBadger "b" "ca" v1).2
        "ab" "c" v2).1.type) = ("b", "ca") ∧ ("b", "ca") ≠ ("ab", "c") := by
  have hkeys : (makeConceptTupleKey "ab" "c" : String) =
      makeConceptTupleKey "b" "ca" := rfl
  constructor
  · by_cases h0 : hash "(ca,b)" = 0 <;>
      simp [GetOrCreateConcept, FindConceptByNameAndType, AddConcepts,
        lookupTupleKey, putTupleKey, putConcept, readConcept,
        makeConceptTupleKey, Concept.Tuple, emptyBadger, h0]
  · decide

/-! ## Validation (core/validation.go) and ingest (claim C7) -/

/-- Validation error kinds (core/errors.go).  The source wraps the leaf
error inside `ErrInvalidChatRecord` / `ErrInvalidConcept`; the model keeps
the leaf kind, which is what `errors.Is` exposes. -/
inductive ValidationErr where
  | invalidChatRecord
  | emptyContent
  | invalidSpeakerType
  | invalidTimestamp
  | invalidConcept
  | emptyConceptName
  | emptyConceptType
deriving DecidableEq

/-- `core.ValidateSpeakerType`: only Human (1) and AI (2) are valid. -/
def ValidateSpeakerType (speaker : Int) : Except ValidationErr Unit :=
  if speaker ≠ 1 ∧ speaker ≠ 2 then .error .invalidSpeakerType else .ok ()

/-- `core.IsValidTimestamp`: not after `now`. -/
def IsValidTimestamp (now ts : Int) : Bool :=
  !(now < ts)

/-- `core.ValidateChatRecord` on a (non-nil) record: contents non-empty,
speaker valid, timestamp not in the future. -/
def ValidateChatRecord (now : Int) (record : ChatRecord) :
    Except ValidationErr Unit :=
  if record.contents = "" then .error .emptyContent
  else
    match ValidateSpeakerType record.speaker with
    | .error e => .error e
    | .ok _ =>
      if ¬ (IsValidTimestamp now record.timestamp = true) then
        .error .invalidTimestamp
      else .ok ()

/-- Insertion of the concept-index entries of a record
(`updateConceptIndex`): one `tx.Set` per `ConceptRef`; no-op for an empty
concept list. -/
def updateConceptIndex (record : ChatRecord) (idx : List (Nat × Nat)) :
    List (Nat × Nat) :=
  record.concepts.foldl
    (fun acc cref => putKey (cref.conceptId, record.id) acc) idx

/-- `ChatRepository.AddChatRecords`: per record, draw the next sequence
value (skipping a 0 draw), stamp id and times, then write the primary
record, the date-index entry and one concept-index entry per `ConceptRef`;
the whole batch is one committed transaction.  The badger sequence is
modelled as the next value `seq` (a fresh sequence starts at 0).  Note:
the function performs no domain validation. -/
def AddChatRecords (now : Int) (seq : Nat) (st : BadgerState)
    (records : List ChatRecord) : List ChatRecord × Nat × BadgerState :=
  match records with
  | [] => ([], seq, st)
  | record :: rest =>
    let drawn := if seq = 0 then (seq + 1, seq + 2) else (seq, seq + 1)
    let r' : ChatRecord :=
      { record with id := drawn.1, insertedAt := now, updatedAt := now }
    let st' : BadgerState :=
      { st with
        chat := putChat r' st.chat,
        dateIdx := putKey (ukey r'.timestamp, r'.id) st.dateIdx,
        conceptIdx := updateConceptIndex r' st.conceptIdx }
    let res := AddChatRecords now drawn.2 st' rest
    (r' :: res.1, res.2.1, res.2.2)

/-- Optional ingest parameters (`ingestion.IngestOptions`); `none` for the
timestamp models the zero `time.Time`. -/
structure IngestOptions where
  metadata : List (String × String)
  timestamp : Option Int

/-- `Pipeline.Ingest`: build one record per message (speaker and metadata
shared, timestamp from the options or `now`), persist them via
`AddChatRecords`, and return immediately; the asynchronous enrichment
submissions are modelled separately (processor section below) and never
surface errors to this caller.  Note: no domain validation happens on this
path. -/
def Ingest (now : Int) (seq : Nat) (st : BadgerState) (speakerType : Int)
    (messages : List String) (opts : Option IngestOptions) :
    Except StoreErr Unit × Nat × BadgerState :=
  let o := opts.getD ⟨[], none⟩
  let records := messages.map (fun message =>
    ({ id := 0, speaker := speakerType, contents := message,
       timestamp := o.timestamp.getD now, insertedAt := 0, updatedAt := 0,
       concepts := [], vector := [], metadata := o.metadata } : ChatRecord))
  let res := AddChatRecords now seq st records
  (.ok (), res.2.1, res.2.2)

/-- Claim C7 against the code: `ValidateChatRecord` rejects an
empty-contents record, yet `AddChatRecords` persists it without error, and
`Ingest` of the empty message likewise returns success and persists a
record with empty contents — no Validation error reaches the caller and
the record is live.  (The same holds for a future timestamp or an invalid
speaker: neither add nor ingest ever consults the validators.) -/
theorem C7_validation_not_enforced :
    ValidateChatRecord 100 ⟨0, 1, "", 50, 0, 0, [], [], []⟩ =
      .error .emptyContent ∧
    readChatRecord (AddChatRecords 100 1 emptyBadger
        [⟨0, 1, "", 50, 0, 0, [], [], []⟩]).2.2 1 =
      some ⟨1, 1, "", 50, 100, 100, [], [], []⟩ ∧
    (Ingest 100 1 emptyBadger 1 [""] none).1 = .ok () ∧
    readChatRecord (Ingest 100 1 emptyBadger 1 [""] none).2.2 1 =
      some ⟨1, 1, "", 100, 100, 100, [], [], []⟩ ∧
    ValidateChatRecord 100 ⟨0, 1, "hi", 200, 0, 0, [], [], []⟩ =
      .error .invalidTimestamp ∧
    (Ingest 100 1 emptyBadger 3 ["hi"] none).1 = .ok () ∧
    ValidateChatRecord 100 ⟨0, 3, "hi", 50, 0, 0, [], [], []⟩ =
      .error .invalidSpeakerType := by
  refine ⟨by decide, by decide, by decide, by decide, by decide, by decide,
    by decide⟩

/-! ## UpdateChatRecords (storage/badger/chat.go) -/

/-- Fieldwise comparison of two concept-ref lists (`conceptsEqual`):
same length and same `(ConceptId, Importance)` at every position, which is
structural equality. -/
def conceptsEqual (a b : List ConceptRef) : Bool :=
  a = b

/-- Insertion of the concept-index entries of a record — declared above in
the ingest section — is shared by add and update.  `updateStep` is the
per-record state mutation of the update transaction: stamp `updatedAt`,
overwrite the primary key, move the date-index entry when the timestamp
changed, rebuild the concept-index entries when the concept refs changed. -/
def updateStep (now : Int) (st : BadgerState) (record old : ChatRecord) :
    BadgerState :=
  let r' : ChatRecord := { record with updatedAt := now }
  let st1 : BadgerState := { st with chat := putChat r' st.chat }
  let st2 : BadgerState :=
    if old.timestamp = record.timestamp then st1
    else
      { st1 with
        dateIdx := putKey (ukey record.timestamp, record.id)
          (delKey (ukey old.timestamp, old.id) st1.dateIdx) }
  if conceptsEqual old.concepts record.concepts then st2
  else
    { st2 with
      conceptIdx :=
        updateConceptIndex r' (deleteConceptIndex old st2.conceptIdx) }

/-- Body of the `UpdateChatRecords` transaction: per record, read the old
version (`NotFound` aborts the batch), then apply `updateStep`. -/
def UpdateChatRecordsLoop (now : Int) (st : BadgerState)
    (records : List ChatRecord) :
    Except StoreErr (List ChatRecord × BadgerState) :=
  match records with
  | [] => .ok ([], st)
  | record :: rest =>
    match readChatRecord st record.id with
    | none => .error .notFound
    | some old =>
      match UpdateChatRecordsLoop now (updateStep now st record old) rest with
      | .error e => .error e
      | .ok (rs, st') => .ok ({ record with updatedAt := now } :: rs, st')

/-- `ChatRepository.UpdateChatRecords`: commit-or-discard wrapper. -/
def UpdateChatRecords (now : Int) (st : BadgerState)
    (records : List ChatRecord) :
    Except StoreErr (List ChatRecord) × BadgerState :=
  match UpdateChatRecordsLoop now st records with
  | .ok (rs, st') => (.ok rs, st')
  | .error e => (.error e, st)

theorem putChat_preserves_present (l : List ChatRecord) (r : ChatRecord)
    (i : Nat) (h : (l.find? (fun x => x.id = i)).isSome) :
    ((putChat r l).find? (fun x => x.id = i)).isSome := by
  rw [List.find?_isSome] at h ⊢
  obtain ⟨x, hx, hxi⟩ := h
  unfold putChat
  split
  · by_cases hxr : x.id = r.id
    · refine ⟨r, List.mem_map.mpr ⟨x, hx, by simp [hxr]⟩, ?_⟩
      have : r.id = i := by
        have h1 := of_decide_eq_true hxi
        omega
      simp [this]
    · exact ⟨x, List.mem_map.mpr ⟨x, hx, by simp [hxr]⟩, hxi⟩
  · exact ⟨x, List.mem_append_left _ hx, hxi⟩

theorem updateStep_preserves_present (now : Int) (st : BadgerState)
    (record old : ChatRecord) (i : Nat)
    (h : (readChatRecord st i).isSome) :
    (readChatRecord (updateStep now st record old) i).isSome := by
  unfold updateStep readChatRecord at *
  split <;> split <;>
    exact putChat_preserves_present st.chat _ i h

theorem updateLoop_ok_of_present (now : Int) (rs : List ChatRecord) :
    ∀ (st : BadgerState), (∀ r ∈ rs, (readChatRecord st r.id).isSome) →
      ∃ st', UpdateChatRecordsLoop now st rs =
        .ok (rs.map (fun r => { r with updatedAt := now }), st') := by
  induction rs with
  | nil => intro st _; exact ⟨st, rfl⟩
  | cons r tl ih =>
    intro st hall
    obtain ⟨old, hold⟩ := Option.isSome_iff_exists.mp
      (hall r (List.mem_cons_self r tl))
    have hall' : ∀ x ∈ tl,
        (readChatRecord (updateStep now st r old) x.id).isSome := by
      intro x hx
      exact updateStep_preserves_present now st r old x.id
        (hall x (List.mem_cons_of_mem r hx))
    obtain ⟨st', hloop⟩ := ih _ hall'
    refine ⟨st', ?_⟩
    unfold UpdateChatRecordsLoop
    rw [hold]
    simp [hloop]

/-! ## Checkpoint store (storage/badger/checkpoint.go) -/

/-- Overwrite-or-insert of a checkpoint key (`tx.Set` semantics: the
stored value under the key is replaced; list order is not observable, as
checkpoints are only read back by key). -/
def putCheckpoint (key : String) (cp : Checkpoint)
    (l : List (String × Checkpoint)) : List (String × Checkpoint) :=
  (key, cp) :: l.filter (fun e => e.1 ≠ key)

/-- `CheckpointRepository.SaveCheckpoint`: stamp `updatedAt` and write
under the checkpoint key.  `saveOk = false` models an underlying storage
failure of this write transaction. -/
def SaveCheckpoint (saveOk : Bool) (now : Int) (st : BadgerState)
    (cp : Checkpoint) : Except StoreErr Unit × BadgerState :=
  if saveOk then
    (.ok (),
      { st with
        checkpoints := putCheckpoint (makeCheckpointKey cp.processorType)
          { cp with updatedAt := now } st.checkpoints })
  else (.error .io, st)

/-- `CheckpointRepository.LoadCheckpoint`: `nil` when absent. -/
def LoadCheckpoint (st : BadgerState) (processorType : String) :
    Option Checkpoint :=
  (st.checkpoints.find? (fun e => e.1 = makeCheckpointKey processorType)).map
    (fun e => e.2)

/-! ## Embedding processor (claims C10, C2, C4)

Source: the checkpoint-aware `embeddingProcessor` (`process` and
`checkpoint`) of the ingestion package. -/

/-- Error kinds of the enrichment processors.  `classifyFailed`,
`getOrCreateFailed` and `updateFailed` are the wrappings
(`"record %d classification failed: %w"`, `"GetOrCreate failed: %w"`,
`"update records failed: %w"`) the concept processor applies before
joining. -/
inductive PErr where
  | notFound
  | io
  | resultMismatch (expected got : Nat)
  | external (code : Nat)
  | classifyFailed (recordIdx : Nat) (e : PErr)
  | getOrCreateFailed (e : PErr)
  | updateFailed (e : PErr)
deriving DecidableEq

/-- Lift of a storage error into a processor error. -/
def PErr.ofStore : StoreErr → PErr
  | .notFound => .notFound
  | .io => .io

/-- Ascending sort of the id batch (`slices.Sort`), done "so checkpointing
works correctly". -/
def sortIds (ids : List Nat) : List Nat :=
  ids.insertionSort (· ≤ ·)

/-- `embeddingProcessor.process`: sort the ids, load the present records,
embed their contents in one batch, fail with a result mismatch when the
embedder returns a batch of the wrong length, assign the vectors, commit
via update, then record the highest updated id into `lastID` (guarded,
never lowered).  The Go expression `updated[len(updated)-1]` indexes
without an emptiness check; the out-of-range panic it raises on an empty
update result is modelled as result `none` — the state component still
reflects the update committed before the panic point.  Returns
(result, store, lastID). -/
def embeddingProcess (embedTexts : List String → Except PErr (List (List ℚ)))
    (now : Int) (st : BadgerState) (lastID : Nat) (ids : List Nat) :
    Option (Except PErr Unit) × BadgerState × Nat :=
  match embedTexts ((GetChatRecords st (sortIds ids)).map
      (fun r => r.contents)) with
  | .error e => (some (.error e), st, lastID)
  | .ok embeddings =>
    if embeddings.length ≠ (GetChatRecords st (sortIds ids)).length then
      (some (.error (.resultMismatch (GetChatRecords st (sortIds ids)).length
        embeddings.length)), st, lastID)
    else
      match UpdateChatRecords now st ((GetChatRecords st (sortIds ids)).zipWith
          (fun r v => { r with vector := v }) embeddings) with
      | (.error e, st') => (some (.error (PErr.ofStore e)), st', lastID)
      | (.ok updated, st') =>
        match updated.getLast? with
        | none => (none, st', lastID)
        | some last =>
          (some (.ok ()), st', if last.id > lastID then last.id else lastID)

/-- Processor type key of the embedding processor
(`ProcessorTypeEmbedding`). -/
def ProcessorTypeEmbedding : String := "embedding"

/-- `embeddingProcessor.checkpoint`: do nothing while `lastID == 0`,
otherwise persist the embedding checkpoint. -/
def embeddingCheckpoint (saveOk : Bool) (now : Int) (st : BadgerState)
    (lastID : Nat) : Except StoreErr Unit × BadgerState :=
  if lastID = 0 then (.ok (), st)
  else SaveCheckpoint saveOk now st ⟨ProcessorTypeEmbedding, lastID, now⟩

theorem mem_zipWith_imp {α β γ : Type} {f : α → β → γ} :
    ∀ {l : List α} {m : List β} {x : γ}, x ∈ List.zipWith f l m →
      ∃ a b, a ∈ l ∧ b ∈ m ∧ f a b = x := by
  intro l
  induction l with
  | nil => intro m x hx; cases hx
  | cons a tl ih =>
    intro m x hx
    cases m with
    | nil => cases hx
    | cons b tm =>
      rw [List.zipWith_cons_cons] at hx
      rcases List.mem_cons.mp hx with heq | htail
      · exact ⟨a, b, List.mem_cons_self a tl, List.mem_cons_self b tm,
          heq.symm⟩
      · obtain ⟨a', b', ha', hb', hfab⟩ := ih htail
        exact ⟨a', b', List.mem_cons_of_mem a ha',
          List.mem_cons_of_mem b hb', hfab⟩

/-- Counterexample to claim C10 as stated: with the batch `ids = [1]`, an
empty store and an embedder that returns one vector per input text (here
the empty batch for the empty input), `process` does not return normally:
it reaches `updated[len(updated)-1]` with an empty `updated` slice and
panics with an index-out-of-range runtime error (modelled as `none`). -/
theorem C10_embeddingProcess_counterexample :
    (embeddingProcess (fun ts => .ok (ts.map (fun _ => ([] : List ℚ))))
      0 emptyBadger 0 [1]).1 = none := by
  decide

theorem embeddingProcess_totality
    (embedTexts : List String → Except PErr (List (List ℚ)))
    (now : Int) (st : BadgerState) (lastID : Nat) (ids : List Nat) :
    ((∃ i ∈ ids, (readChatRecord st i).isSome) →
      (embeddingProcess embedTexts now st lastID ids).1.isSome) ∧
    ((∀ i ∈ ids, readChatRecord st i = none) →
      embedTexts [] = .ok [] →
      (embeddingProcess embedTexts now st lastID ids).1 = none) := by
  have hrec : GetChatRecords st (sortIds ids) =
      (sortIds ids).filterMap (readChatRecord st) :=
    getChatRecords_eq_filterMap st (sortIds ids)
  constructor
  · rintro ⟨i, hi, hsome⟩
    have hne : GetChatRecords st (sortIds ids) ≠ [] := by
      rw [hrec]
      intro hempty
      obtain ⟨r, hr⟩ := Option.isSome_iff_exists.mp hsome
      have himem : i ∈ sortIds ids := by
        unfold sortIds
        exact (List.mem_insertionSort _).mpr hi
      have : r ∈ (sortIds ids).filterMap (readChatRecord st) :=
        List.mem_filterMap.mpr ⟨i, himem, hr⟩
      rw [hempty] at this
      cases this
    unfold embeddingProcess
    cases hemb : embedTexts ((GetChatRecords st (sortIds ids)).map
        (fun r => r.contents)) with
    | error e => simp [hemb]
    | ok embeddings =>
      dsimp only
      by_cases hlen : embeddings.length =
          (GetChatRecords st (sortIds ids)).length
      · have hpres : ∀ x ∈ (GetChatRecords st (sortIds ids)).zipWith
            (fun r v => { r with vector := v }) embeddings,
            (readChatRecord st x.id).isSome := by
          intro x hx
          obtain ⟨r, v, hr, hv, hxeq⟩ := mem_zipWith_imp hx
          have hrmem : r ∈ st.chat := by
            rw [hrec] at hr
            obtain ⟨j, hj, hjr⟩ := List.mem_filterMap.mp hr
            exact readChatRecord_mem st j r hjr
          rw [← hxeq]
          rw [readChatRecord, List.find?_isSome]
          exact ⟨r, hrmem, by simp⟩
        obtain ⟨st', hloop⟩ := updateLoop_ok_of_present now _ st hpres
        have hupd : UpdateChatRecords now st
            ((GetChatRecords st (sortIds ids)).zipWith
              (fun r v => { r with vector := v }) embeddings) =
            (.ok (((GetChatRecords st (sortIds ids)).zipWith
              (fun r v => { r with vector := v }) embeddings).map
                (fun r => { r with updatedAt := now })), st') := by
          unfold UpdateChatRecords
          rw [hloop]
        have hlen2 : (((GetChatRecords st (sortIds ids)).zipWith
            (fun r v => { r with vector := v }) embeddings).map
              (fun r => { r with updatedAt := now })).length =
            (GetChatRecords st (sortIds ids)).length := by
          rw [List.length_map, List.length_zipWith, hlen, min_self]
        have hne2 : (((GetChatRecords st (sortIds ids)).zipWith
            (fun r v => { r with vector := v }) embeddings).map
              (fun r => { r with updatedAt := now })) ≠ [] := by
          intro hcon
          apply hne
          have hl := congrArg List.length hcon
          rw [hlen2] at hl
          exact List.eq_nil_of_length_eq_zero hl
        rw [if_neg (fun hcon => hcon hlen), hupd]
        cases hlast : (((GetChatRecords st (sortIds ids)).zipWith
            (fun r v => { r with vector := v }) embeddings).map
              (fun r => { r with updatedAt := now })).getLast? with
        | none => exact absurd (List.getLast?_eq_none_iff.mp hlast) hne2
        | some last => simp [hlast]
      · simp [hlen]
  · intro habs hempty
    have hnil : GetChatRecords st (sortIds ids) = [] := by
      rw [hrec]
      apply List.filterMap_eq_nil_iff.mpr
      intro j hj
      exact habs j ((List.mem_insertionSort _).mp hj)
    unfold embeddingProcess
    rw [hnil]
    simp [hempty, UpdateChatRecords, UpdateChatRecordsLoop]

/-- Claim C10, amended: given an embedder that succeeds on the empty batch,
`process` panics (index out of range on the empty update result) whenever
the id list resolves to no stored record; it returns normally — `Ok` or an
error — whenever at least one id resolves, for every embedder behaviour. -/
theorem C10_embeddingProcess_amended
    (embedTexts : List String → Except PErr (List (List ℚ)))
    (now : Int) (st : BadgerState) (lastID : Nat) (ids : List Nat) :
    ((∃ i ∈ ids, (readChatRecord st i).isSome) →
      (embeddingProcess embedTexts now st lastID ids).1.isSome) ∧
    ((∀ i ∈ ids, readChatRecord st i = none) →
      embedTexts [] = .ok [] →
      (embeddingProcess embedTexts now st lastID ids).1 = none) :=
  embeddingProcess_totality embedTexts now st lastID ids

/-- Concrete application of the amended C10: on a store holding record 1,
process of `[1]` with a well-behaved embedder returns normally, and on the
empty store it panics. -/
theorem C10_embeddingProcess_amended_witness :
    (embeddingProcess (fun ts => .ok (ts.map (fun _ => ([] : List ℚ))))
      0 { emptyBadger with chat := [⟨1, 1, "m", 0, 0, 0, [], [], []⟩] }
      0 [1]).1.isSome ∧
    (embeddingProcess (fun ts => .ok (ts.map (fun _ => ([] : List ℚ))))
      0 emptyBadger 0 [2]).1 = none := by
  constructor
  · exact (C10_embeddingProcess_amended _ 0
      { emptyBadger with chat := [⟨1, 1, "m", 0, 0, 0, [], [], []⟩] }
      0 [1]).1 ⟨1, by decide, by decide⟩
  · exact (C10_embeddingProcess_amended _ 0 emptyBadger 0 [2]).2
      (by
        intro i hi
        rw [List.mem_singleton] at hi
        subst hi
        decide) rfl

/-! ## Concept processor (ingestion/concept.go, claims C2, C4)

The external collaborators — the concept extractor's `ExtractConcepts` and
the embedder's `EmbedTexts` — are oracle functions; `hash` is
`core.IDFromContent` as before.  The control flow (per-record
classification with error accumulation, first-seen dedup keyed by concept
id, batch get-or-create, position-map distribution, commit via update,
unguarded `lastID = records[len(records)-1].Id`, `errors.Join`) is
translated from the source. -/

/-- Extraction triple (`ai.ExtractedConcept` / the internal `concept`
type, whose fields coincide). -/
structure ExtractedConcept where
  name : String
  type : String
  importance : Int
deriving DecidableEq

/-- Tuple string `"(" + Type + "," + Name + ")"` of an internal concept
(`concept.Tuple`). -/
def tupleOf (c : ExtractedConcept) : String :=
  "(" ++ c.type ++ "," ++ c.name ++ ")"

/-- Slot where a concept must be assigned (`recordConceptPos`). -/
structure RecordConceptPos where
  recordIdx : Nat
  conceptIdx : Nat
  importance : Int
deriving DecidableEq

/-- Most-recent records, newest first (`GetRecentChatRecords`):
reverse-iterate the date index and resolve up to `limit` present
records. -/
def GetRecentChatRecords (st : BadgerState) (limit : Nat) :
    List ChatRecord :=
  (((st.dateIdx.insertionSort dateKeyLe).reverse).filterMap
    (fun e => readChatRecord st e.2)).take limit

/-- Context text for one record (`conceptProcessor.buildContextWindow`,
fixed-turns variant): for `contextTurns = 0` just the record's contents;
otherwise fetch `contextTurns*2 + 10` recent records, keep those strictly
before the record's timestamp, reverse to chronological order, keep the
last `contextTurns*2`, and join them plus the current contents with blank
lines. -/
def buildContextWindow (contextTurns : Nat) (st : BadgerState)
    (record : ChatRecord) : String :=
  if contextTurns = 0 then record.contents
  else
    let recentRecords := GetRecentChatRecords st (contextTurns * 2 + 10)
    let contextRecords :=
      (recentRecords.filter
        (fun msg => msg.timestamp < record.timestamp)).reverse
    let kept :=
      if contextRecords.length > contextTurns * 2 then
        contextRecords.drop (contextRecords.length - contextTurns * 2)
      else contextRecords
    String.intercalate "\n\n"
      (kept.map (fun m => m.contents) ++ [record.contents])

/-- Accumulator of the classification loop (step 1 of
`conceptProcessor.process`). -/
structure ClassifyOut where
  records : List ChatRecord
  mapping : List (Nat × RecordConceptPos)
  allConcepts : List ExtractedConcept
  errs : List PErr
deriving DecidableEq

/-- One iteration of the classification loop: build the context window,
extract (a failure is recorded and the record left untouched), initialise
the record's concept slots to zero values, extend the position map, and
append unseen concepts (dedup keyed by the content-derived id) in
first-seen order. -/
def classifyStep (extract : String → Except PErr (List ExtractedConcept))
    (hash : String → Nat) (contextTurns : Nat) (st : BadgerState)
    (acc : ClassifyOut) (recordIdx : Nat) (record : ChatRecord) :
    ClassifyOut :=
  match extract (buildContextWindow contextTurns st record) with
  | .error e =>
    { acc with
      records := acc.records ++ [record],
      errs := acc.errs ++ [.classifyFailed recordIdx e] }
  | .ok extracted =>
    { records := acc.records ++
        [{ record with
           concepts := List.replicate extracted.length ⟨0, 0⟩ }],
      mapping := acc.mapping ++
        (extracted.enum.map (fun p =>
          (hash (tupleOf p.2), RecordConceptPos.mk recordIdx p.1
            p.2.importance))),
      allConcepts := extracted.foldl
        (fun all c =>
          if all.any (fun c' => hash (tupleOf c') = hash (tupleOf c)) then
            all
          else all ++ [c]) acc.allConcepts,
      errs := acc.errs }

/-- Step 1 over all loaded records, in order, with their indices. -/
def classifyAll (extract : String → Except PErr (List ExtractedConcept))
    (hash : String → Nat) (contextTurns : Nat) (st : BadgerState)
    (records : List ChatRecord) : ClassifyOut :=
  records.enum.foldl
    (fun acc p => classifyStep extract hash contextTurns st acc p.1 p.2)
    ⟨[], [], [], []⟩

/-- Step 2 (`conceptProcessor.getOrCreateConcepts`): embed all tuples in
one batch, then get-or-create each concept in order, threading the store.
The source indexes `embeddings[i]`; `zip` truncates instead of panicking
on a short batch, a path no claim exercises. -/
def getOrCreateConcepts (embedTexts : List String → Except PErr (List (List ℚ)))
    (hash : String → Nat) (now : Int) (st : BadgerState)
    (rawConcepts : List ExtractedConcept) :
    Except PErr (List Concept) × BadgerState :=
  match embedTexts (rawConcepts.map tupleOf) with
  | .error e => (.error e, st)
  | .ok embeddings =>
    let out := (rawConcepts.zip embeddings).foldl
      (fun (acc : List Concept × BadgerState) p =>
        let res := GetOrCreateConcept hash now acc.2 p.1.name p.1.type p.2
        (acc.1 ++ [res.1], res.2)) ([], st)
    (.ok out.1, out.2)

/-- In-place update at one position of a list. -/
def updAt {α : Type} : List α → Nat → (α → α) → List α
  | [], _, _ => []
  | a :: tl, 0, f => f a :: tl
  | a :: tl, Nat.succ m, f => a :: updAt tl m f

/-- Step 3: distribute each resolved concept's id into every slot the
position map recorded for it, keeping the originally-extracted
importance. -/
def distribute (mapping : List (Nat × RecordConceptPos))
    (resolved : List Concept) (records : List ChatRecord) :
    List ChatRecord :=
  resolved.foldl
    (fun recs c =>
      (mapping.filter (fun e => e.1 = c.id)).foldl
        (fun recs2 e =>
          updAt recs2 e.2.recordIdx
            (fun r =>
              { r with
                concepts := r.concepts.set e.2.conceptIdx
                  ⟨c.id, e.2.importance⟩ })) recs) records

/-- Step 2 dispatch of `conceptProcessor.process`: skip get-or-create
entirely when classification produced no concepts. -/
def conceptStep2 (embedTexts : List String → Except PErr (List (List ℚ)))
    (hash : String → Nat) (now : Int) (st : BadgerState)
    (cl : ClassifyOut) : Except PErr (List Concept) × BadgerState :=
  if cl.allConcepts.isEmpty then (.ok [], st)
  else getOrCreateConcepts embedTexts hash now st cl.allConcepts

/-- `conceptProcessor.process`: sort the ids, load the present records,
classify each (partial success), get-or-create the unique concepts with
embeddings, distribute the resolved ids, commit all loaded records via
update, set `lastID` (unguarded) to the final loaded record's id when the
update succeeded and records were loaded, and return the joined errors if
any step failed. -/
def conceptProcess (extract : String → Except PErr (List ExtractedConcept))
    (embedTexts : List String → Except PErr (List (List ℚ)))
    (hash : String → Nat) (contextTurns : Nat) (now : Int)
    (st : BadgerState) (lastID : Nat) (ids : List Nat) :
    Option (Except (List PErr) Unit) × BadgerState × Nat :=
  let cl := classifyAll extract hash contextTurns st
    (GetChatRecords st (sortIds ids))
  let step2 : Except PErr (List Concept) × BadgerState :=
    conceptStep2 embedTexts hash now st cl
  let errs1 : List PErr :=
    match step2.1 with
    | .error e => cl.errs ++ [.getOrCreateFailed e]
    | .ok _ => cl.errs
  let resolved : List Concept :=
    match step2.1 with
    | .ok cs => cs
    | .error _ => []
  let records' := distribute cl.mapping resolved cl.records
  match UpdateChatRecords now step2.2 records' with
  | (.error ue, st3) =>
    (some (.error (errs1 ++ [.updateFailed (PErr.ofStore ue)])), st3, lastID)
  | (.ok _, st3) =>
    let lastID' :=
      match records'.getLast? with
      | some l => l.id
      | none => lastID
    (if errs1.isEmpty then some (.ok ()) else some (.error errs1), st3,
      lastID')

/-- Processor type key of the concept processor. -/
def ProcessorTypeConcept : String := "concept"

/-- Modelled from the spec: the checkpoint-persisting
`conceptProcessor.checkpoint` is missing from the source tree under
`src/` — `src/ingestion/pipeline.go` calls a concept-processor
constructor that takes a checkpoint repository, but the only
`concept.go` present carries the older TODO stub without one.  Following
spec §4.5's processor contract as instantiated for the embedding
processor (§4.5.1, "if `last_id == 0` do nothing; otherwise persist
`{processor_type, last_id, updated_at=now()}`") applied to the concept
processor's own type. -/
def conceptCheckpoint (saveOk : Bool) (now : Int) (st : BadgerState)
    (lastID : Nat) : Except StoreErr Unit × BadgerState :=
  if lastID = 0 then (.ok (), st)
  else SaveCheckpoint saveOk now st ⟨ProcessorTypeConcept, lastID, now⟩

/-! ## Pipeline recovery (ingestion/pipeline.go, claim C2) -/

/-- Internal processor interface (`ingestion.processor`): `process(ids)`
returning (result-or-panic, store, in-memory lastID), and `checkpoint()`.
The embedding processor's single error is wrapped into a singleton list so
both processors share the error type of the concept processor's joined
errors. -/
structure ProcModel where
  process : BadgerState → Nat → List Nat →
    Option (Except (List PErr) Unit) × BadgerState × Nat
  checkpoint : Bool → BadgerState → Nat → Except StoreErr Unit × BadgerState

/-- The embedding processor as a `ProcModel`. -/
def embeddingProcModel
    (embedTexts : List String → Except PErr (List (List ℚ)))
    (now : Int) : ProcModel :=
  ⟨fun st lastID ids =>
      match embeddingProcess embedTexts now st lastID ids with
      | (none, st', last') => (none, st', last')
      | (some (.error e), st', last') => (some (.error [e]), st', last')
      | (some (.ok _), st', last') => (some (.ok ()), st', last'),
    fun saveOk st lastID => embeddingCheckpoint saveOk now st lastID⟩

/-- The concept processor as a `ProcModel`. -/
def conceptProcModel
    (extract : String → Except PErr (List ExtractedConcept))
    (embedTexts : List String → Except PErr (List (List ℚ)))
    (hash : String → Nat) (contextTurns : Nat) (now : Int) : ProcModel :=
  ⟨fun st lastID ids =>
      conceptProcess extract embedTexts hash contextTurns now st lastID ids,
    fun saveOk st lastID => conceptCheckpoint saveOk now st lastID⟩

/-- Structural worker for `chunksOf`: the fuel starts at the list length
and strictly bounds the number of splits, so for `n ≥ 1` it is never
exhausted on a non-empty list. -/
def chunksOfAux {α : Type} (n : Nat) : Nat → List α → List (List α)
  | _, [] => []
  | 0, a :: tl => [a :: tl]
  | fuel + 1, a :: tl =>
    ((a :: tl).take n) :: chunksOfAux n fuel ((a :: tl).drop n)

/-- Batch splitting of `processWithProgress`'s loop
(`for i := 0; i < total; i += progressInterval`, slicing `ids[i:end]`). -/
def chunksOf {α : Type} (n : Nat) (l : List α) : List (List α) :=
  chunksOfAux n l.length l

theorem chunksOfAux_flatten {α : Type} (n : Nat) (hn : 1 ≤ n) :
    ∀ (fuel : Nat) (l : List α), l.length ≤ fuel →
      (chunksOfAux n fuel l).flatten = l := by
  intro fuel
  induction fuel with
  | zero =>
    intro l hl
    have : l = [] := List.eq_nil_of_length_eq_zero (by omega)
    subst this
    rfl
  | succ f ih =>
    intro l hl
    cases l with
    | nil => rfl
    | cons a tl =>
      rw [chunksOfAux]
      have hlen : ((a :: tl).drop n).length ≤ f := by
        rw [List.length_drop]
        simp only [List.length_cons] at hl ⊢
        omega
      rw [List.flatten_cons, ih ((a :: tl).drop n) hlen]
      exact List.take_append_drop n (a :: tl)

theorem chunksOf_flatten {α : Type} (n : Nat) (hn : 1 ≤ n) (l : List α) :
    (chunksOf n l).flatten = l :=
  chunksOfAux_flatten n hn l.length l le_rfl

theorem chunksOfAux_ne_nil {α : Type} (n : Nat) (hn : 1 ≤ n) :
    ∀ (fuel : Nat) (l : List α), l.length ≤ fuel →
      ∀ c ∈ chunksOfAux n fuel l, c ≠ [] := by
  intro fuel
  induction fuel with
  | zero =>
    intro l hl c hc
    have : l = [] := List.eq_nil_of_length_eq_zero (by omega)
    subst this
    cases hc
  | succ f ih =>
    intro l hl c hc
    cases l with
    | nil => cases hc
    | cons a tl =>
      rw [chunksOfAux] at hc
      have hlen : ((a :: tl).drop n).length ≤ f := by
        rw [List.length_drop]
        simp only [List.length_cons] at hl ⊢
        omega
      rcases List.mem_cons.mp hc with heq | htail
      · subst heq
        cases n with
        | zero => omega
        | succ m => simp
      · exact ih ((a :: tl).drop n) hlen c htail

theorem chunksOf_ne_nil {α : Type} (n : Nat) (hn : 1 ≤ n) (l : List α) :
    ∀ c ∈ chunksOf n l, c ≠ [] :=
  chunksOfAux_ne_nil n hn l.length l le_rfl

/-- `progressInterval`: records per recovery batch. -/
def progressInterval : Nat := 10

/-- `filterIDsAfter`: the ids strictly greater than `afterID`, in order. -/
def filterIDsAfter (ids : List Nat) (afterID : Nat) : List Nat :=
  ids.filter (fun id => id > afterID)

/-- Order of chat records by ascending id. -/
def byIdLe (a b : ChatRecord) : Prop :=
  a.id ≤ b.id

instance : DecidableRel byIdLe := fun a b => by
  unfold byIdLe; infer_instance

instance : IsTotal ChatRecord byIdLe :=
  ⟨fun a b => le_total a.id b.id⟩

instance : IsTrans ChatRecord byIdLe :=
  ⟨fun _ _ _ hab hbc => le_trans hab hbc⟩

/-- Modelled from the spec: `GetChatRecordsAfterID` is called by
`Pipeline.recover` but no file under `src/` defines it (the chat
repository there predates it).  Spec §4.6.1 step 2: "Fetch all chat
records with id strictly greater than `lowest`"; modelled as the live
records with `id > afterID` in ascending id order. -/
def GetChatRecordsAfterID (st : BadgerState) (afterID : Nat) :
    List ChatRecord :=
  (st.chat.filter (fun r => r.id > afterID)).insertionSort byIdLe

/-- Trace events of one recovery run: a processed batch (with the error
when `process` failed), a `checkpoint()` call (`ok = false` when the save
failed and was only logged), and the progress log lines. -/
inductive TEv where
  | procBatch (name : String) (batch : List Nat) (failed : Option (List PErr))
  | ckptCall (name : String) (ok : Bool)
  | note (msg : String)
deriving DecidableEq

/-- `Pipeline.processWithProgress`: per batch, `process` — a failure
aborts with that error — then `checkpoint()`, whose failure is logged
(trace event with `ok = false`) and processing continues.  `saveOk`
indexed by a running save counter injects checkpoint-save failures;
`none` propagates a processor panic.  Returns
(result, store, lastID, save counter, trace). -/
def processWithProgress (proc : ProcModel) (name : String)
    (saveOk : Nat → Bool) :
    List (List Nat) → BadgerState → Nat → Nat → List TEv →
    Option (Except (List PErr) Unit × BadgerState × Nat × Nat × List TEv)
  | [], st, lastID, saveCtr, tr => some (.ok (), st, lastID, saveCtr, tr)
  | batch :: rest, st, lastID, saveCtr, tr =>
    match proc.process st lastID batch with
    | (none, _, _) => none
    | (some (.error e), st', last') =>
      some (.error e, st', last', saveCtr,
        tr ++ [.procBatch name batch (some e)])
    | (some (.ok _), st', last') =>
      let ck := proc.checkpoint (saveOk saveCtr) st' last'
      let ckOk : Bool := match ck.1 with | .ok _ => true | .error _ => false
      processWithProgress proc name saveOk rest ck.2 last' (saveCtr + 1)
        (tr ++ [.procBatch name batch none, .ckptCall name ckOk])

/-- Final state of a recovery run. -/
structure RecoverResult where
  st : BadgerState
  embLast : Nat
  conLast : Nat
  saveCtr : Nat
  trace : List TEv
deriving DecidableEq

/-- `lowest` of `Pipeline.recover`: the minimum of the two checkpoints'
`last_id`s, 0 when either checkpoint is absent. -/
def recoverLowest (st : BadgerState) : Nat :=
  match LoadCheckpoint st ProcessorTypeEmbedding,
      LoadCheckpoint st ProcessorTypeConcept with
  | some e, some c => min e.lastId c.lastId
  | _, _ => 0

/-- The pending record ids of the recovery pass, ascending. -/
def recoverAllIDs (st : BadgerState) : List Nat :=
  (GetChatRecordsAfterID st (recoverLowest st)).map (fun r => r.id)

/-- The pending ids above the embedding processor's own checkpoint. -/
def recoverEmbeddingIDs (st : BadgerState) : List Nat :=
  filterIDsAfter (recoverAllIDs st)
    (match LoadCheckpoint st ProcessorTypeEmbedding with
      | some c => c.lastId
      | none => 0)

/-- The pending ids above the concept processor's own checkpoint. -/
def recoverConceptIDs (st : BadgerState) : List Nat :=
  filterIDsAfter (recoverAllIDs st)
    (match LoadCheckpoint st ProcessorTypeConcept with
      | some c => c.lastId
      | none => 0)

/-- `Pipeline.recover`: load both checkpoints, take `lowest` as their
minimum (0 when either is absent), fetch the records after `lowest`,
return early when none are pending, then run the embedding processor over
the pending ids above its own checkpoint in batches of `progressInterval`,
and the concept processor likewise.  Both processors start with
`lastID = 0` (they are freshly constructed by `NewPipeline`).  A `process`
failure aborts recovery with that error; a `checkpoint` failure is logged
and recovery continues. -/
def recover (embedProc conceptProc : ProcModel) (saveOk : Nat → Bool)
    (st : BadgerState) :
    Option (Except (List PErr) Unit × RecoverResult) :=
  if GetChatRecordsAfterID st (recoverLowest st) = [] then
    some (.ok (), ⟨st, 0, 0, 0, [.note "no pending records to recover"]⟩)
  else
    match
      (if recoverEmbeddingIDs st = [] then
        some (.ok (), st, 0, 0, ([] : List TEv))
      else processWithProgress embedProc "embeddings" saveOk
        (chunksOf progressInterval (recoverEmbeddingIDs st)) st 0 0 []) with
    | none => none
    | some (.error e, st1, embLast1, ctr1, tr1) =>
      some (.error e, ⟨st1, embLast1, 0, ctr1, tr1⟩)
    | some (.ok _, st1, embLast1, ctr1, tr1) =>
      match
        (if recoverConceptIDs st = [] then
          some (.ok (), st1, 0, ctr1, ([] : List TEv))
        else processWithProgress conceptProc "concepts" saveOk
          (chunksOf progressInterval (recoverConceptIDs st)) st1 0 ctr1 [])
        with
      | none => none
      | some (.error e, st2, conLast2, ctr2, tr2) =>
        some (.error e, ⟨st2, embLast1, conLast2, ctr2, tr1 ++ tr2⟩)
      | some (.ok _, st2, conLast2, ctr2, tr2) =>
        some (.ok (), ⟨st2, embLast1, conLast2, ctr2,
          tr1 ++ tr2 ++ [.note "recovery complete"]⟩)

/-! ## Invariant lemmas for the recovery proof (claim C2) -/

theorem sorted_le_getLast {l : List Nat} (hs : l.Sorted (· ≤ ·)) :
    ∀ x ∈ l, ∀ y, l.getLast? = some y → x ≤ y := by
  induction l with
  | nil => intro x hx; cases hx
  | cons a tl ih =>
    intro x hx y hy
    cases tl with
    | nil =>
      rcases List.mem_singleton.mp hx with rfl
      rw [List.getLast?_singleton] at hy
      injection hy with h
      omega
    | cons b tm =>
      rw [List.getLast?_cons_cons] at hy
      have hs' : (b :: tm).Sorted (· ≤ ·) := hs.of_cons
      rcases List.mem_cons.mp hx with rfl | htail
      · have hmem : y ∈ b :: tm := List.mem_of_mem_getLast? hy
        exact (List.pairwise_cons.mp hs).1 y hmem
      · exact ih hs' x htail y hy

theorem getLast?_map_id (l : List ChatRecord) :
    (l.map ChatRecord.id).getLast? = l.getLast?.map ChatRecord.id := by
  rw [List.getLast?_map]

theorem updateLoop_ok_shape (now : Int) (rs : List ChatRecord) :
    ∀ (st : BadgerState) (out : List ChatRecord) (st' : BadgerState),
      UpdateChatRecordsLoop now st rs = .ok (out, st') →
        out = rs.map (fun r => { r with updatedAt := now }) := by
  induction rs with
  | nil =>
    intro st out st' h
    unfold UpdateChatRecordsLoop at h
    injection h with h2
    injection h2 with h3 h4
    rw [← h3]
    rfl
  | cons r tl ih =>
    intro st out st' h
    unfold UpdateChatRecordsLoop at h
    split at h
    · cases h
    · rename_i old hold
      split at h
      · cases h
      · rename_i rs2 st2 hloop
        injection h with h2
        injection h2 with h3 h4
        rw [← h3, List.map_cons, ih _ rs2 st2 hloop]

theorem updateLoop_ok_preserves (now : Int) (rs : List ChatRecord) :
    ∀ (st : BadgerState) (out : List ChatRecord) (st' : BadgerState),
      UpdateChatRecordsLoop now st rs = .ok (out, st') →
        ∀ i, (readChatRecord st i).isSome →
          (readChatRecord st' i).isSome := by
  induction rs with
  | nil =>
    intro st out st' h i hi
    unfold UpdateChatRecordsLoop at h
    injection h with h2
    injection h2 with h3 h4
    rw [← h4]
    exact hi
  | cons r tl ih =>
    intro st out st' h i hi
    unfold UpdateChatRecordsLoop at h
    split at h
    · cases h
    · rename_i old hold
      split at h
      · cases h
      · rename_i rs2 st2 hloop
        injection h with h2
        injection h2 with h3 h4
        subst h4
        exact ih _ rs2 st2 hloop i
          (updateStep_preserves_present now st r old i hi)

theorem updateStep_checkpoints (now : Int) (st : BadgerState)
    (record old : ChatRecord) :
    (updateStep now st record old).checkpoints = st.checkpoints := by
  unfold updateStep
  split <;> split <;> rfl

theorem updateLoop_ok_checkpoints (now : Int) (rs : List ChatRecord) :
    ∀ (st : BadgerState) (out : List ChatRecord) (st' : BadgerState),
      UpdateChatRecordsLoop now st rs = .ok (out, st') →
        st'.checkpoints = st.checkpoints := by
  induction rs with
  | nil =>
    intro st out st' h
    unfold UpdateChatRecordsLoop at h
    injection h with h2
    injection h2 with h3 h4
    rw [← h4]
  | cons r tl ih =>
    intro st out st' h
    unfold UpdateChatRecordsLoop at h
    split at h
    · cases h
    · rename_i old hold
      split at h
      · cases h
      · rename_i rs2 st2 hloop
        injection h with h2
        injection h2 with h3 h4
        subst h4
        rw [ih _ rs2 st2 hloop, updateStep_checkpoints]

theorem updateChatRecords_preserves (now : Int) (st : BadgerState)
    (rs : List ChatRecord) :
    ((UpdateChatRecords now st rs).2.checkpoints = st.checkpoints) ∧
    (∀ i, (readChatRecord st i).isSome →
      (readChatRecord (UpdateChatRecords now st rs).2 i).isSome) := by
  unfold UpdateChatRecords
  cases hloop : UpdateChatRecordsLoop now st rs with
  | error e => exact ⟨rfl, fun i hi => hi⟩
  | ok p =>
    exact ⟨updateLoop_ok_checkpoints now rs st p.1 p.2 (by rw [hloop]),
      fun i hi => updateLoop_ok_preserves now rs st p.1 p.2 (by rw [hloop]) i hi⟩

theorem addConcepts_chat_checkpoints (hash : String → Nat) (now : Int)
    (concepts : List Concept) :
    ∀ (st : BadgerState),
      (AddConcepts hash now st concepts).2.chat = st.chat ∧
      (AddConcepts hash now st concepts).2.checkpoints = st.checkpoints := by
  induction concepts with
  | nil => intro st; exact ⟨rfl, rfl⟩
  | cons c tl ih =>
    intro st
    unfold AddConcepts
    exact ih _

theorem getOrCreateConcept_chat_checkpoints (hash : String → Nat) (now : Int)
    (st : BadgerState) (name conceptType : String) (vector : List ℚ) :
    (GetOrCreateConcept hash now st name conceptType vector).2.chat =
      st.chat ∧
    (GetOrCreateConcept hash now st name conceptType vector).2.checkpoints =
      st.checkpoints := by
  unfold GetOrCreateConcept
  cases FindConceptByNameAndType st name conceptType with
  | ok c => exact ⟨rfl, rfl⟩
  | error e =>
    dsimp only
    have h := addConcepts_chat_checkpoints hash now
      [{ id := hash ("(" ++ conceptType ++ "," ++ name ++ ")"),
         name := name, type := conceptType, vector := vector,
         insertedAt := 0, updatedAt := 0 }] st
    cases hadd : AddConcepts hash now st
        [{ id := hash ("(" ++ conceptType ++ "," ++ name ++ ")"),
           name := name, type := conceptType, vector := vector,
           insertedAt := 0, updatedAt := 0 }] with
    | mk res st2 =>
      rw [hadd] at h
      cases res with
      | nil => exact h
      | cons a rest => exact h

theorem getOrCreateConcepts_chat_checkpoints
    (embedTexts : List String → Except PErr (List (List ℚ)))
    (hash : String → Nat) (now : Int) (st : BadgerState)
    (rawConcepts : List ExtractedConcept) :
    (getOrCreateConcepts embedTexts hash now st rawConcepts).2.chat =
      st.chat ∧
    (getOrCreateConcepts embedTexts hash now st rawConcepts).2.checkpoints =
      st.checkpoints := by
  unfold getOrCreateConcepts
  cases embedTexts (rawConcepts.map tupleOf) with
  | error e => exact ⟨rfl, rfl⟩
  | ok embeddings =>
    dsimp only
    have hfold : ∀ (pairs : List (ExtractedConcept × List ℚ))
        (acc : List Concept × BadgerState),
        (pairs.foldl (fun acc p =>
          let res := GetOrCreateConcept hash now acc.2 p.1.name p.1.type p.2
          (acc.1 ++ [res.1], res.2)) acc).2.chat = acc.2.chat ∧
        (pairs.foldl (fun acc p =>
          let res := GetOrCreateConcept hash now acc.2 p.1.name p.1.type p.2
          (acc.1 ++ [res.1], res.2)) acc).2.checkpoints =
          acc.2.checkpoints := by
      intro pairs
      induction pairs with
      | nil => intro acc; exact ⟨rfl, rfl⟩
      | cons p tl ih =>
        intro acc
        rw [List.foldl_cons]
        have h1 := getOrCreateConcept_chat_checkpoints hash now acc.2
          p.1.name p.1.type p.2
        have h2 := ih (acc.1 ++
          [(GetOrCreateConcept hash now acc.2 p.1.name p.1.type p.2).1],
          (GetOrCreateConcept hash now acc.2 p.1.name p.1.type p.2).2)
        exact ⟨h2.1.trans h1.1, h2.2.trans h1.2⟩
    exact hfold (rawConcepts.zip embeddings) ([], st)

theorem find?_filter_ne_key (l : List (String × Checkpoint)) (key k' : String)
    (hne : k' ≠ key) :
    (l.filter (fun e => e.1 ≠ key)).find? (fun e => e.1 = k') =
      l.find? (fun e => e.1 = k') := by
  induction l with
  | nil => rfl
  | cons e tl ih =>
    by_cases hek : e.1 = key
    · have h1 : (e :: tl).filter (fun e => e.1 ≠ key) =
          tl.filter (fun e => e.1 ≠ key) := by
        simp [List.filter_cons, hek]
      have hd : decide (e.1 = k') = false := by
        apply decide_eq_false
        rw [hek]
        exact fun h => hne h.symm
      have h2 : (e :: tl).find? (fun e => e.1 = k') =
          tl.find? (fun e => e.1 = k') := by
        rw [List.find?_cons, hd]
      rw [h1, h2]
      exact ih
    · have h1 : (e :: tl).filter (fun e => e.1 ≠ key) =
          e :: tl.filter (fun e => e.1 ≠ key) := by
        simp [List.filter_cons, hek]
      rw [h1, List.find?_cons, List.find?_cons]
      cases hd : decide (e.1 = k') with
      | false => exact ih
      | true => rfl

theorem loadCheckpoint_save_same (now : Int) (st : BadgerState)
    (cp : Checkpoint) :
    LoadCheckpoint (SaveCheckpoint true now st cp).2 cp.processorType =
      some { cp with updatedAt := now } := by
  unfold SaveCheckpoint LoadCheckpoint putCheckpoint
  simp [List.find?_cons]

theorem loadCheckpoint_save_other (now : Int) (st : BadgerState)
    (cp : Checkpoint) (p : String)
    (hne : makeCheckpointKey p ≠ makeCheckpointKey cp.processorType) :
    LoadCheckpoint (SaveCheckpoint true now st cp).2 p =
      LoadCheckpoint st p := by
  have hne2 :
      decide (makeCheckpointKey cp.processorType = makeCheckpointKey p) =
        false :=
    decide_eq_false (fun h => hne h.symm)
  unfold LoadCheckpoint SaveCheckpoint putCheckpoint
  rw [if_pos rfl]
  rw [List.find?_cons, hne2]
  dsimp only
  rw [find?_filter_ne_key st.checkpoints (makeCheckpointKey cp.processorType)
    (makeCheckpointKey p) hne]

theorem saveCheckpoint_chat (saveOk : Bool) (now : Int) (st : BadgerState)
    (cp : Checkpoint) :
    (SaveCheckpoint saveOk now st cp).2.chat = st.chat := by
  unfold SaveCheckpoint
  split <;> rfl

theorem saveCheckpoint_fail (now : Int) (st : BadgerState) (cp : Checkpoint) :
    SaveCheckpoint false now st cp = (.error .io, st) := by
  unfold SaveCheckpoint
  rfl

theorem zipWith_vector_map_id :
    ∀ (l : List ChatRecord) (m : List (List ℚ)), m.length = l.length →
      (l.zipWith (fun r v => { r with vector := v }) m).map ChatRecord.id =
        l.map ChatRecord.id := by
  intro l
  induction l with
  | nil => intro m _; rfl
  | cons r tl ih =>
    intro m hm
    cases m with
    | nil => simp at hm
    | cons v tm =>
      rw [List.zipWith_cons_cons, List.map_cons, List.map_cons,
        ih tm (by simpa using hm)]

theorem map_updatedAt_map_id (now : Int) (l : List ChatRecord) :
    ((l.map (fun r => { r with updatedAt := now })).map ChatRecord.id) =
      l.map ChatRecord.id := by
  rw [List.map_map]
  rfl

theorem updAt_map_id (f : ChatRecord → ChatRecord)
    (hf : ∀ a, (f a).id = a.id) :
    ∀ (l : List ChatRecord) (n : Nat),
      (updAt l n f).map ChatRecord.id = l.map ChatRecord.id := by
  intro l
  induction l with
  | nil => intro n; rfl
  | cons a tl ih =>
    intro n
    cases n with
    | zero =>
      unfold updAt
      rw [List.map_cons, List.map_cons, hf]
    | succ m =>
      unfold updAt
      rw [List.map_cons, List.map_cons, ih m]

theorem distribute_map_id (mapping : List (Nat × RecordConceptPos))
    (resolved : List Concept) :
    ∀ (records : List ChatRecord),
      (distribute mapping resolved records).map ChatRecord.id =
        records.map ChatRecord.id := by
  unfold distribute
  induction resolved with
  | nil => intro records; rfl
  | cons c tl ih =>
    intro records
    rw [List.foldl_cons]
    rw [ih]
    generalize (mapping.filter (fun e => e.1 = c.id)) = entries
    induction entries generalizing records with
    | nil => rfl
    | cons e etl eih =>
      rw [List.foldl_cons]
      rw [eih]
      exact updAt_map_id (fun r =>
        { r with concepts :=
            r.concepts.set e.2.conceptIdx ⟨c.id, e.2.importance⟩ })
        (fun a => rfl) records e.2.recordIdx

theorem classifyAll_map_id
    (extract : String → Except PErr (List ExtractedConcept))
    (hash : String → Nat) (contextTurns : Nat) (st : BadgerState)
    (records : List ChatRecord) :
    (classifyAll extract hash contextTurns st records).records.map
      ChatRecord.id = records.map ChatRecord.id := by
  unfold classifyAll
  have hgen : ∀ (lp : List (Nat × ChatRecord)) (acc : ClassifyOut),
      ((lp.foldl (fun acc p =>
          classifyStep extract hash contextTurns st acc p.1 p.2)
        acc).records).map ChatRecord.id =
        acc.records.map ChatRecord.id ++ lp.map (fun p => p.2.id) := by
    intro lp
    induction lp with
    | nil => intro acc; simp
    | cons p tlp ih =>
      intro acc
      rw [List.foldl_cons, ih]
      unfold classifyStep
      cases extract (buildContextWindow contextTurns st p.2) with
      | error e => simp
      | ok extracted => simp
  rw [hgen records.enum ⟨[], [], [], []⟩]
  simp only [List.map_nil, List.nil_append]
  rw [show (fun p : Nat × ChatRecord => p.2.id) =
      (ChatRecord.id ∘ Prod.snd) from rfl,
    ← List.map_map, List.enum_map_snd]

theorem readChatRecord_congr_chat (st st' : BadgerState)
    (h : st'.chat = st.chat) (i : Nat) :
    readChatRecord st' i = readChatRecord st i := by
  unfold readChatRecord
  rw [h]

theorem loadCheckpoint_congr (st st' : BadgerState)
    (h : st'.checkpoints = st.checkpoints) (p : String) :
    LoadCheckpoint st' p = LoadCheckpoint st p := by
  unfold LoadCheckpoint
  rw [h]

theorem chunksOf_ne_nil_of_ne_nil {α : Type} (n : Nat) (l : List α)
    (h : l ≠ []) : chunksOf n l ≠ [] := by
  cases l with
  | nil => exact absurd rfl h
  | cons a tl =>
    show chunksOfAux n (a :: tl).length (a :: tl) ≠ []
    rw [List.length_cons]
    show ((a :: tl).take n) :: chunksOfAux n tl.length ((a :: tl).drop n) ≠ []
    exact List.cons_ne_nil _ _

theorem chunksOfAux_length_le {α : Type} (n : Nat) (hn : 1 ≤ n) :
    ∀ (fuel : Nat) (l : List α), l.length ≤ fuel →
      ∀ c ∈ chunksOfAux n fuel l, c.length ≤ n := by
  intro fuel
  induction fuel with
  | zero =>
    intro l hl c hc
    have : l = [] := List.eq_nil_of_length_eq_zero (by omega)
    subst this
    cases hc
  | succ f ih =>
    intro l hl c hc
    cases l with
    | nil => cases hc
    | cons a tl =>
      rw [chunksOfAux] at hc
      rcases List.mem_cons.mp hc with heq | htail
      · subst heq
        rw [List.length_take]
        exact min_le_left _ _
      · apply ih ((a :: tl).drop n) ?_ c htail
        rw [List.length_drop]
        simp only [List.length_cons] at hl ⊢
        omega

theorem chunksOf_length_le {α : Type} (n : Nat) (hn : 1 ≤ n) (l : List α) :
    ∀ c ∈ chunksOf n l, c.length ≤ n :=
  chunksOfAux_length_le n hn l.length l le_rfl

theorem filterMap_read_map_id (st : BadgerState) :
    ∀ (js : List Nat),
      ((js.filterMap (readChatRecord st)).map ChatRecord.id) =
        js.filter (fun j => (readChatRecord st j).isSome) := by
  intro js
  induction js with
  | nil => rfl
  | cons j tl ih =>
    rw [List.filterMap_cons, List.filter_cons]
    cases hj : readChatRecord st j with
    | none => simpa [hj] using ih
    | some r =>
      rw [List.map_cons, ih, readChatRecord_id st j r hj]
      simp [hj]

theorem sortIds_sorted (ids : List Nat) : (sortIds ids).Sorted (· ≤ ·) :=
  List.sorted_insertionSort _ ids

theorem updateChatRecords_ok_inv (now : Int) (st : BadgerState)
    (rs : List ChatRecord) (out : List ChatRecord) (st' : BadgerState)
    (h : UpdateChatRecords now st rs = (.ok out, st')) :
    UpdateChatRecordsLoop now st rs = .ok (out, st') := by
  unfold UpdateChatRecords at h
  split at h
  · rename_i rs2 st2 hloop
    injection h with h1 h2
    injection h1 with h3
    subst h3
    subst h2
    exact hloop
  · simp at h

theorem embeddingProcess_state
    (embedTexts : List String → Except PErr (List (List ℚ)))
    (now : Int) (st : BadgerState) (lastID : Nat) (ids : List Nat) :
    (embeddingProcess embedTexts now st lastID ids).2.1.checkpoints =
      st.checkpoints ∧
    ∀ i, (readChatRecord st i).isSome →
      (readChatRecord (embeddingProcess embedTexts now st lastID ids).2.1
        i).isSome := by
  unfold embeddingProcess
  cases hemb : embedTexts ((GetChatRecords st (sortIds ids)).map
      (fun r => r.contents)) with
  | error e => exact ⟨rfl, fun i hi => hi⟩
  | ok embeddings =>
    dsimp only
    split
    · exact ⟨rfl, fun i hi => hi⟩
    · have hupd := updateChatRecords_preserves now st
        ((GetChatRecords st (sortIds ids)).zipWith
          (fun r v => { r with vector := v }) embeddings)
      cases hu : UpdateChatRecords now st
          ((GetChatRecords st (sortIds ids)).zipWith
            (fun r v => { r with vector := v }) embeddings) with
      | mk res st' =>
        rw [hu] at hupd
        cases res with
        | error e => exact hupd
        | ok updated =>
          dsimp only
          cases updated.getLast? with
          | none => exact hupd
          | some last => exact hupd

theorem embeddingProcess_cover
    (embedTexts : List String → Except PErr (List (List ℚ)))
    (now : Int) (st : BadgerState) (lastID : Nat) (ids : List Nat)
    (st' : BadgerState) (last' : Nat) (u : Unit)
    (h : embeddingProcess embedTexts now st lastID ids =
      (some (.ok u), st', last')) :
    ∀ i ∈ ids, (readChatRecord st i).isSome → i ≤ last' := by
  intro i hi hsome
  unfold embeddingProcess at h
  split at h
  · simp at h
  · rename_i embeddings hemb
    split at h
    · simp at h
    · rename_i hlen
      split at h
      · simp at h
      · rename_i updated st2 hupdeq
        split at h
        · simp at h
        · rename_i last hlast
          injection h with h1 h2
          injection h2 with h3 h4
          have hloop := updateChatRecords_ok_inv now st _ updated st2 hupdeq
          have hshape := updateLoop_ok_shape now _ st updated st2 hloop
          have hlen2 : embeddings.length =
              (GetChatRecords st (sortIds ids)).length := by
            by_contra hc
            exact hlen hc
          have hmid : updated.map ChatRecord.id =
              (sortIds ids).filter
                (fun j => (readChatRecord st j).isSome) := by
            rw [hshape, map_updatedAt_map_id,
              zipWith_vector_map_id _ embeddings hlen2,
              getChatRecords_eq_filterMap, filterMap_read_map_id]
          have hmem : i ∈ updated.map ChatRecord.id := by
            rw [hmid]
            refine List.mem_filter.mpr ⟨?_, hsome⟩
            unfold sortIds
            exact (List.mem_insertionSort _).mpr hi
          have hsorted : (updated.map ChatRecord.id).Sorted (· ≤ ·) := by
            rw [hmid]
            exact (sortIds_sorted ids).filter _
          have hglast : (updated.map ChatRecord.id).getLast? =
              some last.id := by
            rw [getLast?_map_id, hlast]
            rfl
          have hile : i ≤ last.id :=
            sorted_le_getLast hsorted i hmem last.id hglast
          rw [← h4]
          split
          · exact hile
          · rename_i hgt
            omega

theorem embProcModel_state
    (embedTexts : List String → Except PErr (List (List ℚ)))
    (now : Int) (st : BadgerState) (last : Nat) (ids : List Nat) :
    ((embeddingProcModel embedTexts now).process st last ids).2.1.checkpoints
      = st.checkpoints ∧
    ∀ i, (readChatRecord st i).isSome →
      (readChatRecord
        ((embeddingProcModel embedTexts now).process st last ids).2.1
        i).isSome := by
  unfold embeddingProcModel
  dsimp only
  have h := embeddingProcess_state embedTexts now st last ids
  cases hres : embeddingProcess embedTexts now st last ids with
  | mk r p =>
    rw [hres] at h
    cases p with
    | mk s l =>
      cases r with
      | none => exact h
      | some ex =>
        cases ex with
        | error e => exact h
        | ok u => exact h

theorem embProcModel_cover
    (embedTexts : List String → Except PErr (List (List ℚ)))
    (now : Int) (st : BadgerState) (last : Nat) (ids : List Nat)
    (st' : BadgerState) (last' : Nat)
    (h : (embeddingProcModel embedTexts now).process st last ids =
      (some (.ok ()), st', last')) :
    ∀ i ∈ ids, (readChatRecord st i).isSome → i ≤ last' := by
  unfold embeddingProcModel at h
  dsimp only at h
  split at h
  · simp at h
  · simp at h
  · rename_i u st2 last2 heq
    injection h with h1 h2
    injection h2 with h3 h4
    subst h3
    subst h4
    exact embeddingProcess_cover embedTexts now st last ids st2 last2 u heq

theorem conceptStep2_state
    (embedTexts : List String → Except PErr (List (List ℚ)))
    (hash : String → Nat) (now : Int) (st : BadgerState)
    (cl : ClassifyOut) :
    (conceptStep2 embedTexts hash now st cl).2.chat = st.chat ∧
    (conceptStep2 embedTexts hash now st cl).2.checkpoints =
      st.checkpoints := by
  unfold conceptStep2
  split
  · exact ⟨rfl, rfl⟩
  · exact getOrCreateConcepts_chat_checkpoints embedTexts hash now st
      cl.allConcepts

theorem conceptProcess_state
    (extract : String → Except PErr (List ExtractedConcept))
    (embedTexts : List String → Except PErr (List (List ℚ)))
    (hash : String → Nat) (contextTurns : Nat) (now : Int)
    (st : BadgerState) (lastID : Nat) (ids : List Nat) :
    (conceptProcess extract embedTexts hash contextTurns now st lastID
      ids).2.1.checkpoints = st.checkpoints ∧
    ∀ i, (readChatRecord st i).isSome →
      (readChatRecord (conceptProcess extract embedTexts hash contextTurns
        now st lastID ids).2.1 i).isSome := by
  unfold conceptProcess
  dsimp only
  have hs2 := conceptStep2_state embedTexts hash now st
    (classifyAll extract hash contextTurns st
      (GetChatRecords st (sortIds ids)))
  have hupd := updateChatRecords_preserves now
    (conceptStep2 embedTexts hash now st
      (classifyAll extract hash contextTurns st
        (GetChatRecords st (sortIds ids)))).2
    (distribute
      (classifyAll extract hash contextTurns st
        (GetChatRecords st (sortIds ids))).mapping
      (match (conceptStep2 embedTexts hash now st
          (classifyAll extract hash contextTurns st
            (GetChatRecords st (sortIds ids)))).1 with
        | .ok cs => cs
        | .error _ => [])
      (classifyAll extract hash contextTurns st
        (GetChatRecords st (sortIds ids))).records)
  cases hu : UpdateChatRecords now
      (conceptStep2 embedTexts hash now st
        (classifyAll extract hash contextTurns st
          (GetChatRecords st (sortIds ids)))).2
      (distribute
        (classifyAll extract hash contextTurns st
          (GetChatRecords st (sortIds ids))).mapping
        (match (conceptStep2 embedTexts hash now st
            (classifyAll extract hash contextTurns st
              (GetChatRecords st (sortIds ids)))).1 with
          | .ok cs => cs
          | .error _ => [])
        (classifyAll extract hash contextTurns st
          (GetChatRecords st (sortIds ids))).records) with
  | mk res st3 =>
    rw [hu] at hupd
    have hck : st3.checkpoints = st.checkpoints := by
      cases res with
      | error ue => exact hupd.1.trans hs2.2
      | ok outs => exact hupd.1.trans hs2.2
    have hpres : ∀ i, (readChatRecord st i).isSome →
        (readChatRecord st3 i).isSome := by
      intro i hi
      cases res with
      | error ue =>
        exact hupd.2 i (by rw [readChatRecord_congr_chat st _ hs2.1]; exact hi)
      | ok outs =>
        exact hupd.2 i (by rw [readChatRecord_congr_chat st _ hs2.1]; exact hi)
    cases res with
    | error ue => exact ⟨hck, hpres⟩
    | ok outs => exact ⟨hck, hpres⟩

theorem conceptProcess_cover
    (extract : String → Except PErr (List ExtractedConcept))
    (embedTexts : List String → Except PErr (List (List ℚ)))
    (hash : String → Nat) (contextTurns : Nat) (now : Int)
    (st : BadgerState) (lastID : Nat) (ids : List Nat)
    (st' : BadgerState) (last' : Nat) (u : Unit)
    (h : conceptProcess extract embedTexts hash contextTurns now st lastID
      ids = (some (.ok u), st', last')) :
    ∀ i ∈ ids, (readChatRecord st i).isSome → i ≤ last' := by
  intro i hi hsome
  have hmid :
      ((distribute
        (classifyAll extract hash contextTurns st
          (GetChatRecords st (sortIds ids))).mapping
        (match (conceptStep2 embedTexts hash now st
            (classifyAll extract hash contextTurns st
              (GetChatRecords st (sortIds ids)))).1 with
          | .ok cs => cs
          | .error _ => [])
        (classifyAll extract hash contextTurns st
          (GetChatRecords st (sortIds ids))).records).map ChatRecord.id) =
      (sortIds ids).filter (fun j => (readChatRecord st j).isSome) := by
    rw [distribute_map_id, classifyAll_map_id,
      getChatRecords_eq_filterMap, filterMap_read_map_id]
  have hmem : i ∈
      (distribute
        (classifyAll extract hash contextTurns st
          (GetChatRecords st (sortIds ids))).mapping
        (match (conceptStep2 embedTexts hash now st
            (classifyAll extract hash contextTurns st
              (GetChatRecords st (sortIds ids)))).1 with
          | .ok cs => cs
          | .error _ => [])
        (classifyAll extract hash contextTurns st
          (GetChatRecords st (sortIds ids))).records).map ChatRecord.id := by
    rw [hmid]
    refine List.mem_filter.mpr ⟨?_, hsome⟩
    unfold sortIds
    exact (List.mem_insertionSort _).mpr hi
  unfold conceptProcess at h
  dsimp only at h
  split at h
  · simp at h
  · rename_i u2 st3 hupdeq
    split at h
    · split at h
      · rename_i l hlast
        injection h with h1 h2
        injection h2 with h3 h4
        have hsorted := (sortIds_sorted ids).filter
          (fun j => (readChatRecord st j).isSome)
        rw [← hmid] at hsorted
        have hglast := getLast?_map_id
          (distribute
            (classifyAll extract hash contextTurns st
              (GetChatRecords st (sortIds ids))).mapping
            (match (conceptStep2 embedTexts hash now st
                (classifyAll extract hash contextTurns st
                  (GetChatRecords st (sortIds ids)))).1 with
              | .ok cs => cs
              | .error _ => [])
            (classifyAll extract hash contextTurns st
              (GetChatRecords st (sortIds ids))).records)
        rw [hlast] at hglast
        have hile := sorted_le_getLast hsorted i hmem l.id hglast
        rw [← h4]
        exact hile
      · rename_i hlast
        rw [List.getLast?_eq_none_iff.mp hlast] at hmem
        cases hmem
    · simp at h

theorem embeddingCheckpoint_chat (b : Bool) (now : Int) (st : BadgerState)
    (last : Nat) :
    (embeddingCheckpoint b now st last).2.chat = st.chat := by
  unfold embeddingCheckpoint
  split
  · rfl
  · exact saveCheckpoint_chat b now st _

theorem embeddingCheckpoint_own (now : Int) (st : BadgerState) (last : Nat)
    (h : last ≠ 0) :
    LoadCheckpoint (embeddingCheckpoint true now st last).2
      ProcessorTypeEmbedding =
      some ⟨ProcessorTypeEmbedding, last, now⟩ := by
  unfold embeddingCheckpoint
  rw [if_neg h]
  exact loadCheckpoint_save_same now st ⟨ProcessorTypeEmbedding, last, now⟩

theorem embeddingCheckpoint_other (b : Bool) (now : Int) (st : BadgerState)
    (last : Nat) (p : String)
    (hp : makeCheckpointKey p ≠ makeCheckpointKey ProcessorTypeEmbedding) :
    LoadCheckpoint (embeddingCheckpoint b now st last).2 p =
      LoadCheckpoint st p := by
  unfold embeddingCheckpoint
  split
  · rfl
  · cases b with
    | false => rw [saveCheckpoint_fail]
    | true =>
      exact loadCheckpoint_save_other now st
        ⟨ProcessorTypeEmbedding, last, now⟩ p hp

theorem conceptCheckpoint_chat (b : Bool) (now : Int) (st : BadgerState)
    (last : Nat) :
    (conceptCheckpoint b now st last).2.chat = st.chat := by
  unfold conceptCheckpoint
  split
  · rfl
  · exact saveCheckpoint_chat b now st _

theorem conceptCheckpoint_own (now : Int) (st : BadgerState) (last : Nat)
    (h : last ≠ 0) :
    LoadCheckpoint (conceptCheckpoint true now st last).2
      ProcessorTypeConcept =
      some ⟨ProcessorTypeConcept, last, now⟩ := by
  unfold conceptCheckpoint
  rw [if_neg h]
  exact loadCheckpoint_save_same now st ⟨ProcessorTypeConcept, last, now⟩

theorem conceptCheckpoint_other (b : Bool) (now : Int) (st : BadgerState)
    (last : Nat) (p : String)
    (hp : makeCheckpointKey p ≠ makeCheckpointKey ProcessorTypeConcept) :
    LoadCheckpoint (conceptCheckpoint b now st last).2 p =
      LoadCheckpoint st p := by
  unfold conceptCheckpoint
  split
  · rfl
  · cases b with
    | false => rw [saveCheckpoint_fail]
    | true =>
      exact loadCheckpoint_save_other now st
        ⟨ProcessorTypeConcept, last, now⟩ p hp

/-- Batches recorded in a trace, in order. -/
def procBatches (tr : List TEv) : List (List Nat) :=
  tr.filterMap (fun e =>
    match e with
    | .procBatch _ b _ => some b
    | _ => none)

/-- Number of `checkpoint()` calls recorded in a trace. -/
def ckptCount (tr : List TEv) : Nat :=
  (tr.filter (fun e =>
    match e with
    | .ckptCall _ _ => true
    | _ => false)).length

theorem procBatches_append (a b : List TEv) :
    procBatches (a ++ b) = procBatches a ++ procBatches b := by
  unfold procBatches
  rw [List.filterMap_append]

theorem ckptCount_append (a b : List TEv) :
    ckptCount (a ++ b) = ckptCount a + ckptCount b := by
  unfold ckptCount
  rw [List.filter_append, List.length_append]

theorem processWithProgress_ok_inv (proc : ProcModel) (name ptype : String)
    (now : Int) (saveOk : Nat → Bool)
    (hall : ∀ n, saveOk n = true)
    (Hstate : ∀ st last ids r st' last',
      proc.process st last ids = (r, st', last') →
      st'.checkpoints = st.checkpoints ∧
      ∀ i, (readChatRecord st i).isSome → (readChatRecord st' i).isSome)
    (Hcover : ∀ st last ids st' last' u,
      proc.process st last ids = (some (.ok u), st', last') →
      ∀ i ∈ ids, (readChatRecord st i).isSome → i ≤ last')
    (Hck_chat : ∀ b st last, (proc.checkpoint b st last).2.chat = st.chat)
    (Hck_own : ∀ st last, last ≠ 0 →
      LoadCheckpoint (proc.checkpoint true st last).2 ptype =
        some ⟨ptype, last, now⟩)
    (Hck_other : ∀ b st last p,
      makeCheckpointKey p ≠ makeCheckpointKey ptype →
      LoadCheckpoint (proc.checkpoint b st last).2 p = LoadCheckpoint st p) :
    ∀ (chunks : List (List Nat)) (st0 : BadgerState) (last0 ctr0 : Nat)
      (tr0 : List TEv) (stF : BadgerState) (lastF ctrF : Nat)
      (trF : List TEv),
      processWithProgress proc name saveOk chunks st0 last0 ctr0 tr0 =
        some (.ok (), stF, lastF, ctrF, trF) →
      (∀ c ∈ chunks, c ≠ []) →
      (∀ i ∈ chunks.flatten, (readChatRecord st0 i).isSome) →
      chunks.flatten.Sorted (· ≤ ·) →
      (∀ i ∈ chunks.flatten, 1 ≤ i) →
      (∀ i, (readChatRecord st0 i).isSome → (readChatRecord stF i).isSome) ∧
      (∀ i ∈ chunks.flatten, i ≤ lastF) ∧
      (∀ p, makeCheckpointKey p ≠ makeCheckpointKey ptype →
        LoadCheckpoint stF p = LoadCheckpoint st0 p) ∧
      (chunks = [] → stF = st0 ∧ lastF = last0) ∧
      (chunks ≠ [] → LoadCheckpoint stF ptype = some ⟨ptype, lastF, now⟩) := by
  intro chunks
  induction chunks with
  | nil =>
    intro st0 last0 ctr0 tr0 stF lastF ctrF trF h hne hpre hsort hpos
    unfold processWithProgress at h
    simp only [Option.some.injEq, Prod.mk.injEq, true_and] at h
    obtain ⟨h1, h2, h3, h4⟩ := h
    subst h1
    subst h2
    subst h3
    subst h4
    refine ⟨fun i hi => hi, ?_, fun p hp => rfl, fun _ => ⟨rfl, rfl⟩,
      fun hne2 => absurd rfl hne2⟩
    intro i hi
    simp at hi
  | cons chunk rest ih =>
    intro st0 last0 ctr0 tr0 stF lastF ctrF trF h hne hpre hsort hpos
    rw [List.flatten_cons] at hpre hsort hpos ⊢
    unfold processWithProgress at h
    split at h
    · simp at h
    · simp at h
    · rename_i u st' last' heq
      dsimp only at h
      rw [hall ctr0] at h
      have hst := Hstate st0 last0 chunk _ st' last' heq
      have hpres1 : ∀ i, (readChatRecord st0 i).isSome →
          (readChatRecord (proc.checkpoint true st' last').2 i).isSome := by
        intro i hi
        rw [readChatRecord_congr_chat st' _ (Hck_chat true st' last')]
        exact hst.2 i hi
      have hrest := ih _ _ _ _ _ _ _ _ h
        (fun c hc => hne c (List.mem_cons_of_mem _ hc))
        (fun i hi => hpres1 i (hpre i (List.mem_append_right _ hi)))
        ((List.pairwise_append.mp hsort).2.1)
        (fun i hi => hpos i (List.mem_append_right _ hi))
      refine ⟨fun i hi => hrest.1 i (hpres1 i hi), ?_, ?_, ?_, ?_⟩
      · intro i hi
        rcases List.mem_append.mp hi with hic | hir
        · by_cases hrnil : rest = []
          · subst hrnil
            obtain ⟨hstF, hlastF⟩ := hrest.2.2.2.1 rfl
            rw [hlastF]
            exact Hcover st0 last0 chunk st' last' u heq i hic
              (hpre i (List.mem_append_left _ hic))
          · have hfne : rest.flatten ≠ [] := by
              cases rest with
              | nil => exact absurd rfl hrnil
              | cons c r' =>
                rw [List.flatten_cons]
                intro hc
                rcases List.append_eq_nil.mp hc with ⟨hc1, _⟩
                exact hne c (List.mem_cons_of_mem _
                  (List.mem_cons_self _ _)) hc1
            obtain ⟨j, hj⟩ := List.exists_mem_of_ne_nil rest.flatten hfne
            have hij : i ≤ j :=
              (List.pairwise_append.mp hsort).2.2 i hic j hj
            exact le_trans hij (hrest.2.1 j hj)
        · exact hrest.2.1 i hir
      · intro p hp
        rw [hrest.2.2.1 p hp, Hck_other true st' last' p hp,
          loadCheckpoint_congr st0 st' hst.1 p]
      · intro hcon
        exact absurd hcon (List.cons_ne_nil _ _)
      · intro _
        by_cases hrnil : rest = []
        · subst hrnil
          obtain ⟨hstF, hlastF⟩ := hrest.2.2.2.1 rfl
          rw [hstF, hlastF]
          apply Hck_own st' last'
          obtain ⟨i0, hi0⟩ := List.exists_mem_of_ne_nil chunk
            (hne chunk (List.mem_cons_self _ _))
          have hcov := Hcover st0 last0 chunk st' last' u heq i0 hi0
            (hpre i0 (List.mem_append_left _ hi0))
          have hpos0 := hpos i0 (List.mem_append_left _ hi0)
          omega
        · exact hrest.2.2.2.2 hrnil

theorem processWithProgress_ok_trace (proc : ProcModel) (name : String)
    (saveOk : Nat → Bool) :
    ∀ (chunks : List (List Nat)) (st0 : BadgerState) (last0 ctr0 : Nat)
      (tr0 : List TEv) (stF : BadgerState) (lastF ctrF : Nat)
      (trF : List TEv),
      processWithProgress proc name saveOk chunks st0 last0 ctr0 tr0 =
        some (.ok (), stF, lastF, ctrF, trF) →
      procBatches trF = procBatches tr0 ++ chunks ∧
      ckptCount trF = ckptCount tr0 + chunks.length := by
  intro chunks
  induction chunks with
  | nil =>
    intro st0 last0 ctr0 tr0 stF lastF ctrF trF h
    unfold processWithProgress at h
    simp only [Option.some.injEq, Prod.mk.injEq, true_and] at h
    obtain ⟨h1, h2, h3, h4⟩ := h
    subst h4
    simp
  | cons chunk rest ih =>
    intro st0 last0 ctr0 tr0 stF lastF ctrF trF h
    unfold processWithProgress at h
    split at h
    · simp at h
    · simp at h
    · rename_i u st' last' heq
      dsimp only at h
      have hrest := ih _ _ _ _ _ _ _ _ h
      constructor
      · rw [hrest.1, procBatches_append]
        show procBatches tr0 ++ [chunk] ++ rest = _
        rw [List.append_assoc]
        rfl
      · rw [hrest.2, ckptCount_append]
        show ckptCount tr0 + 1 + rest.length = _
        rw [List.length_cons]
        omega

theorem processWithProgress_error_trace (proc : ProcModel) (name : String)
    (saveOk : Nat → Bool) :
    ∀ (chunks : List (List Nat)) (st0 : BadgerState) (last0 ctr0 : Nat)
      (tr0 : List TEv) (e : List PErr) (stF : BadgerState)
      (lastF ctrF : Nat) (trF : List TEv),
      processWithProgress proc name saveOk chunks st0 last0 ctr0 tr0 =
        some (.error e, stF, lastF, ctrF, trF) →
      ∃ batch tr', batch ∈ chunks ∧
        trF = tr' ++ [TEv.procBatch name batch (some e)] := by
  intro chunks
  induction chunks with
  | nil =>
    intro st0 last0 ctr0 tr0 e stF lastF ctrF trF h
    unfold processWithProgress at h
    simp at h
  | cons chunk rest ih =>
    intro st0 last0 ctr0 tr0 e stF lastF ctrF trF h
    unfold processWithProgress at h
    split at h
    · simp at h
    · rename_i e2 st' last' heq
      simp only [Option.some.injEq, Prod.mk.injEq] at h
      obtain ⟨h1, h2, h3, h4, h5⟩ := h
      injection h1 with h1'
      subst h1'
      subst h5
      exact ⟨chunk, tr0, List.mem_cons_self _ _, rfl⟩
    · rename_i u st' last' heq
      dsimp only at h
      obtain ⟨batch, tr', hb, htr⟩ := ih _ _ _ _ _ _ _ _ _ h
      exact ⟨batch, tr', List.mem_cons_of_mem _ hb, htr⟩

theorem recoverAllIDs_present (st : BadgerState) :
    ∀ i ∈ recoverAllIDs st, (readChatRecord st i).isSome := by
  intro i hi
  unfold recoverAllIDs GetChatRecordsAfterID at hi
  obtain ⟨r, hr, hid⟩ := List.mem_map.mp hi
  have hr3 : r ∈ st.chat :=
    List.mem_of_mem_filter ((List.mem_insertionSort _).mp hr)
  rw [readChatRecord, List.find?_isSome]
  exact ⟨r, hr3, by rw [hid]; simp⟩

theorem recoverAllIDs_pos (st : BadgerState)
    (hpos : ∀ r ∈ st.chat, 1 ≤ r.id) :
    ∀ i ∈ recoverAllIDs st, 1 ≤ i := by
  intro i hi
  unfold recoverAllIDs GetChatRecordsAfterID at hi
  obtain ⟨r, hr, hid⟩ := List.mem_map.mp hi
  have hr3 : r ∈ st.chat :=
    List.mem_of_mem_filter ((List.mem_insertionSort _).mp hr)
  rw [← hid]
  exact hpos r hr3

theorem recoverAllIDs_sorted (st : BadgerState) :
    (recoverAllIDs st).Sorted (· ≤ ·) := by
  unfold recoverAllIDs GetChatRecordsAfterID
  exact (List.sorted_insertionSort byIdLe _).map _ (fun a b h => h)

theorem recoverAllIDs_covers (st : BadgerState) :
    ∀ r ∈ st.chat, recoverLowest st < r.id → r.id ∈ recoverAllIDs st := by
  intro r hr hlt
  unfold recoverAllIDs GetChatRecordsAfterID
  refine List.mem_map.mpr ⟨r, ?_, rfl⟩
  refine (List.mem_insertionSort _).mpr (List.mem_filter.mpr ⟨hr, ?_⟩)
  simp [hlt]

theorem mem_filterIDsAfter (ids : List Nat) (a i : Nat) :
    i ∈ filterIDsAfter ids a ↔ i ∈ ids ∧ a < i := by
  unfold filterIDsAfter
  rw [List.mem_filter]
  simp

theorem filterIDsAfter_sorted (ids : List Nat) (a : Nat)
    (h : ids.Sorted (· ≤ ·)) : (filterIDsAfter ids a).Sorted (· ≤ ·) :=
  h.filter _

theorem filterIDsAfter_eq_nil (ids : List Nat) (a : Nat)
    (h : filterIDsAfter ids a = []) : ∀ i ∈ ids, i ≤ a := by
  intro i hi
  by_contra hc
  have hmem : i ∈ filterIDsAfter ids a :=
    (mem_filterIDsAfter ids a i).mpr ⟨hi, by omega⟩
  rw [h] at hmem
  cases hmem

theorem getAfterID_eq_nil (st : BadgerState) (low : Nat)
    (h : GetChatRecordsAfterID st low = []) :
    ∀ r ∈ st.chat, r.id ≤ low := by
  intro r hr
  by_contra hc
  have hmem : r ∈ GetChatRecordsAfterID st low := by
    unfold GetChatRecordsAfterID
    refine (List.mem_insertionSort _).mpr (List.mem_filter.mpr ⟨hr, ?_⟩)
    simp
    omega
  rw [h] at hmem
  cases hmem

theorem recoverLowest_le_emb (st : BadgerState) (e : Checkpoint)
    (hE : LoadCheckpoint st ProcessorTypeEmbedding = some e) :
    recoverLowest st ≤ e.lastId := by
  unfold recoverLowest
  rw [hE]
  cases LoadCheckpoint st ProcessorTypeConcept with
  | none => exact Nat.zero_le _
  | some c => exact min_le_left _ _

theorem recoverLowest_le_con (st : BadgerState) (c : Checkpoint)
    (hC : LoadCheckpoint st ProcessorTypeConcept = some c) :
    recoverLowest st ≤ c.lastId := by
  unfold recoverLowest
  rw [hC]
  cases LoadCheckpoint st ProcessorTypeEmbedding with
  | none => exact Nat.zero_le _
  | some e => exact min_le_right _ _

theorem recoverLowest_emb_none (st : BadgerState)
    (hE : LoadCheckpoint st ProcessorTypeEmbedding = none) :
    recoverLowest st = 0 := by
  unfold recoverLowest
  rw [hE]

theorem recoverLowest_con_none (st : BadgerState)
    (hC : LoadCheckpoint st ProcessorTypeConcept = none) :
    recoverLowest st = 0 := by
  unfold recoverLowest
  rw [hC]
  cases LoadCheckpoint st ProcessorTypeEmbedding with
  | none => rfl
  | some e => rfl

theorem embKey_ne_conKey :
    makeCheckpointKey ProcessorTypeEmbedding ≠
      makeCheckpointKey ProcessorTypeConcept := by
  decide

theorem conKey_ne_embKey :
    makeCheckpointKey ProcessorTypeConcept ≠
      makeCheckpointKey ProcessorTypeEmbedding := by
  decide

theorem embProcModel_state_eq
    (embedTexts : List String → Except PErr (List (List ℚ)))
    (now : Int) :
    ∀ (st : BadgerState) (last : Nat) (ids : List Nat)
      (r : Option (Except (List PErr) Unit)) (st' : BadgerState)
      (last' : Nat),
      (embeddingProcModel embedTexts now).process st last ids =
        (r, st', last') →
      st'.checkpoints = st.checkpoints ∧
      ∀ i, (readChatRecord st i).isSome →
        (readChatRecord st' i).isSome := by
  intro st last ids r st' last' heq
  have h := embProcModel_state embedTexts now st last ids
  rw [heq] at h
  exact h

theorem embProcModel_cover_eq
    (embedTexts : List String → Except PErr (List (List ℚ)))
    (now : Int) :
    ∀ (st : BadgerState) (last : Nat) (ids : List Nat)
      (st' : BadgerState) (last' : Nat) (u : Unit),
      (embeddingProcModel embedTexts now).process st last ids =
        (some (.ok u), st', last') →
      ∀ i ∈ ids, (readChatRecord st i).isSome → i ≤ last' := by
  intro st last ids st' last' u heq
  cases u
  exact embProcModel_cover embedTexts now st last ids st' last' heq

theorem conProcModel_state_eq
    (extract : String → Except PErr (List ExtractedConcept))
    (embedTexts : List String → Except PErr (List (List ℚ)))
    (hash : String → Nat) (contextTurns : Nat) (now : Int) :
    ∀ (st : BadgerState) (last : Nat) (ids : List Nat)
      (r : Option (Except (List PErr) Unit)) (st' : BadgerState)
      (last' : Nat),
      (conceptProcModel extract embedTexts hash contextTurns now).process
        st last ids = (r, st', last') →
      st'.checkpoints = st.checkpoints ∧
      ∀ i, (readChatRecord st i).isSome →
        (readChatRecord st' i).isSome := by
  intro st last ids r st' last' heq
  have h := conceptProcess_state extract embedTexts hash contextTurns now
    st last ids
  rw [show (conceptProcModel extract embedTexts hash contextTurns
      now).process st last ids =
    conceptProcess extract embedTexts hash contextTurns now st last ids
    from rfl] at heq
  rw [heq] at h
  exact h

theorem conProcModel_cover_eq
    (extract : String → Except PErr (List ExtractedConcept))
    (embedTexts : List String → Except PErr (List (List ℚ)))
    (hash : String → Nat) (contextTurns : Nat) (now : Int) :
    ∀ (st : BadgerState) (last : Nat) (ids : List Nat)
      (st' : BadgerState) (last' : Nat) (u : Unit),
      (conceptProcModel extract embedTexts hash contextTurns now).process
        st last ids = (some (.ok u), st', last') →
      ∀ i ∈ ids, (readChatRecord st i).isSome → i ≤ last' := by
  intro st last ids st' last' u heq
  exact conceptProcess_cover extract embedTexts hash contextTurns now
    st last ids st' last' u heq

theorem recoverPhase_ok (proc : ProcModel) (pname ptype : String)
    (now : Int) (saveOk : Nat → Bool)
    (hall : ∀ n, saveOk n = true)
    (Hstate : ∀ st last ids r st' last',
      proc.process st last ids = (r, st', last') →
      st'.checkpoints = st.checkpoints ∧
      ∀ i, (readChatRecord st i).isSome → (readChatRecord st' i).isSome)
    (Hcover : ∀ st last ids st' last' u,
      proc.process st last ids = (some (.ok u), st', last') →
      ∀ i ∈ ids, (readChatRecord st i).isSome → i ≤ last')
    (Hck_chat : ∀ b st last, (proc.checkpoint b st last).2.chat = st.chat)
    (Hck_own : ∀ st last, last ≠ 0 →
      LoadCheckpoint (proc.checkpoint true st last).2 ptype =
        some ⟨ptype, last, now⟩)
    (Hck_other : ∀ b st last p,
      makeCheckpointKey p ≠ makeCheckpointKey ptype →
      LoadCheckpoint (proc.checkpoint b st last).2 p = LoadCheckpoint st p)
    (st0 : BadgerState) (ids : List Nat)
    (hsorted : ids.Sorted (· ≤ ·))
    (hpresent : ∀ i ∈ ids, (readChatRecord st0 i).isSome)
    (hpos : ∀ i ∈ ids, 1 ≤ i)
    (ctrZ ctr0 : Nat) (stF : BadgerState) (lastF ctrF : Nat)
    (trF : List TEv) (u : Unit)
    (heq : (if ids = [] then some (.ok (), st0, 0, ctrZ, ([] : List TEv))
        else processWithProgress proc pname saveOk
          (chunksOf progressInterval ids) st0 0 ctr0 []) =
      some (.ok u, stF, lastF, ctrF, trF)) :
    (∀ i, (readChatRecord st0 i).isSome → (readChatRecord stF i).isSome) ∧
    (∀ p, makeCheckpointKey p ≠ makeCheckpointKey ptype →
      LoadCheckpoint stF p = LoadCheckpoint st0 p) ∧
    (ids ≠ [] → LoadCheckpoint stF ptype = some ⟨ptype, lastF, now⟩ ∧
      ∀ i ∈ ids, i ≤ lastF) ∧
    (ids = [] → stF = st0) := by
  cases u
  split at heq
  · rename_i hids
    simp only [Option.some.injEq, Prod.mk.injEq, true_and] at heq
    obtain ⟨h1, h2, h3, h4⟩ := heq
    subst h1
    exact ⟨fun i hi => hi, fun p hp => rfl,
      fun hne => absurd hids hne, fun _ => rfl⟩
  · rename_i hids
    have hten : 1 ≤ progressInterval := by decide
    have hflat := chunksOf_flatten progressInterval hten ids
    have hinv := processWithProgress_ok_inv proc pname ptype now saveOk hall
      Hstate Hcover Hck_chat Hck_own Hck_other
      (chunksOf progressInterval ids) st0 0 ctr0 [] stF lastF ctrF trF heq
      (chunksOf_ne_nil progressInterval hten ids)
      (fun i hi => hpresent i (by rwa [hflat] at hi))
      (by rwa [hflat])
      (fun i hi => hpos i (by rwa [hflat] at hi))
    refine ⟨hinv.1, hinv.2.2.1, fun _ => ⟨?_, ?_⟩,
      fun hcon => absurd hcon hids⟩
    · exact hinv.2.2.2.2 (chunksOf_ne_nil_of_ne_nil progressInterval ids hids)
    · intro i hi
      exact hinv.2.1 i (by rwa [hflat])

theorem recover_ok_checkpoints
    (embedTexts1 : List String → Except PErr (List (List ℚ)))
    (extract : String → Except PErr (List ExtractedConcept))
    (embedTexts2 : List String → Except PErr (List (List ℚ)))
    (hash : String → Nat) (contextTurns : Nat) (now : Int)
    (saveOk : Nat → Bool) (st : BadgerState) (res : RecoverResult)
    (hpos : ∀ r ∈ st.chat, 1 ≤ r.id)
    (hall : ∀ n, saveOk n = true)
    (hchat : st.chat ≠ [])
    (hrec : recover (embeddingProcModel embedTexts1 now)
      (conceptProcModel extract embedTexts2 hash contextTurns now)
      saveOk st = some (.ok (), res)) :
    ∃ e c, LoadCheckpoint res.st ProcessorTypeEmbedding = some e ∧
      LoadCheckpoint res.st ProcessorTypeConcept = some c ∧
      ∀ r ∈ st.chat, r.id ≤ e.lastId ∧ r.id ≤ c.lastId := by
  unfold recover at hrec
  split at hrec
  · rename_i hpend
    simp only [Option.some.injEq, Prod.mk.injEq, true_and] at hrec
    subst hrec
    have hle : ∀ r ∈ st.chat, r.id ≤ recoverLowest st :=
      getAfterID_eq_nil st _ hpend
    obtain ⟨r0, hr0⟩ := List.exists_mem_of_ne_nil st.chat hchat
    have hlow : 1 ≤ recoverLowest st :=
      le_trans (hpos r0 hr0) (hle r0 hr0)
    cases hE : LoadCheckpoint st ProcessorTypeEmbedding with
    | none =>
      rw [recoverLowest_emb_none st hE] at hlow
      omega
    | some e =>
      cases hC : LoadCheckpoint st ProcessorTypeConcept with
      | none =>
        rw [recoverLowest_con_none st hC] at hlow
        omega
      | some c =>
        refine ⟨e, c, rfl, rfl, fun r hr => ⟨?_, ?_⟩⟩
        · exact le_trans (hle r hr) (recoverLowest_le_emb st e hE)
        · exact le_trans (hle r hr) (recoverLowest_le_con st c hC)
  · rename_i hpend
    split at hrec
    · simp at hrec
    · simp at hrec
    · rename_i u1 st1 embLast1 ctr1 tr1 heq1
      split at hrec
      · simp at hrec
      · simp at hrec
      · rename_i u2 st2 conLast2 ctr2 tr2 heq2
        simp only [Option.some.injEq, Prod.mk.injEq, true_and] at hrec
        subst hrec
        have hallne : recoverAllIDs st ≠ [] := by
          unfold recoverAllIDs
          intro hcon
          exact hpend (List.map_eq_nil_iff.mp hcon)
        obtain ⟨i0, hi0⟩ := List.exists_mem_of_ne_nil _ hallne
        have hph1 := recoverPhase_ok (embeddingProcModel embedTexts1 now)
          "embeddings" ProcessorTypeEmbedding now saveOk hall
          (embProcModel_state_eq embedTexts1 now)
          (embProcModel_cover_eq embedTexts1 now)
          (fun b s l => embeddingCheckpoint_chat b now s l)
          (fun s l h => embeddingCheckpoint_own now s l h)
          (fun b s l p hp => embeddingCheckpoint_other b now s l p hp)
          st (recoverEmbeddingIDs st)
          (by
            unfold recoverEmbeddingIDs
            exact filterIDsAfter_sorted _ _ (recoverAllIDs_sorted st))
          (by
            intro i hi
            unfold recoverEmbeddingIDs at hi
            exact recoverAllIDs_present st i
              ((mem_filterIDsAfter _ _ _).mp hi).1)
          (by
            intro i hi
            unfold recoverEmbeddingIDs at hi
            exact recoverAllIDs_pos st hpos i
              ((mem_filterIDsAfter _ _ _).mp hi).1)
          0 0 st1 embLast1 ctr1 tr1 u1 heq1
        have hph2 := recoverPhase_ok
          (conceptProcModel extract embedTexts2 hash contextTurns now)
          "concepts" ProcessorTypeConcept now saveOk hall
          (conProcModel_state_eq extract embedTexts2 hash contextTurns now)
          (conProcModel_cover_eq extract embedTexts2 hash contextTurns now)
          (fun b s l => conceptCheckpoint_chat b now s l)
          (fun s l h => conceptCheckpoint_own now s l h)
          (fun b s l p hp => conceptCheckpoint_other b now s l p hp)
          st1 (recoverConceptIDs st)
          (by
            unfold recoverConceptIDs
            exact filterIDsAfter_sorted _ _ (recoverAllIDs_sorted st))
          (by
            intro i hi
            unfold recoverConceptIDs at hi
            exact hph1.1 i (recoverAllIDs_present st i
              ((mem_filterIDsAfter _ _ _).mp hi).1))
          (by
            intro i hi
            unfold recoverConceptIDs at hi
            exact recoverAllIDs_pos st hpos i
              ((mem_filterIDsAfter _ _ _).mp hi).1)
          ctr1 ctr1 st2 conLast2 ctr2 tr2 u2 heq2
        have hEfinal : ∃ e,
            LoadCheckpoint st2 ProcessorTypeEmbedding = some e ∧
            ∀ r ∈ st.chat, r.id ≤ e.lastId := by
          have hpass2 : LoadCheckpoint st2 ProcessorTypeEmbedding =
              LoadCheckpoint st1 ProcessorTypeEmbedding :=
            hph2.2.1 ProcessorTypeEmbedding embKey_ne_conKey
          by_cases hE0 : recoverEmbeddingIDs st = []
          · have hst1 : st1 = st := hph1.2.2.2 hE0
            cases hE : LoadCheckpoint st ProcessorTypeEmbedding with
            | none =>
              exfalso
              unfold recoverEmbeddingIDs at hE0
              rw [hE] at hE0
              have h0 : i0 ≤ 0 := filterIDsAfter_eq_nil _ _ hE0 i0 hi0
              have h1 := recoverAllIDs_pos st hpos i0 hi0
              omega
            | some e0 =>
              unfold recoverEmbeddingIDs at hE0
              rw [hE] at hE0
              have hle_all := filterIDsAfter_eq_nil _ _ hE0
              refine ⟨e0, by rw [hpass2, hst1]; exact hE, ?_⟩
              intro r hr
              by_cases hgt : recoverLowest st < r.id
              · exact hle_all r.id (recoverAllIDs_covers st r hr hgt)
              · have hlow := recoverLowest_le_emb st e0 hE
                omega
          · obtain ⟨hload1, hcov1⟩ := hph1.2.2.1 hE0
            refine ⟨⟨ProcessorTypeEmbedding, embLast1, now⟩,
              by rw [hpass2]; exact hload1, ?_⟩
            intro r hr
            show r.id ≤ embLast1
            cases hE : LoadCheckpoint st ProcessorTypeEmbedding with
            | none =>
              by_cases hgt : recoverLowest st < r.id
              · have hmem := recoverAllIDs_covers st r hr hgt
                have hmem2 : r.id ∈ recoverEmbeddingIDs st := by
                  unfold recoverEmbeddingIDs
                  rw [hE]
                  exact (mem_filterIDsAfter _ _ _).mpr
                    ⟨hmem, show 0 < r.id by have := hpos r hr; omega⟩
                exact hcov1 r.id hmem2
              · exfalso
                have hl0 := recoverLowest_emb_none st hE
                have := hpos r hr
                omega
            | some e0 =>
              obtain ⟨j, hj⟩ := List.exists_mem_of_ne_nil _ hE0
              have hj2 : j ∈ recoverAllIDs st ∧ e0.lastId < j := by
                have hj' := hj
                unfold recoverEmbeddingIDs at hj'
                rw [hE] at hj'
                exact (mem_filterIDsAfter _ _ _).mp hj'
              have hjle := hcov1 j hj
              by_cases hgt : recoverLowest st < r.id
              · have hmem := recoverAllIDs_covers st r hr hgt
                by_cases hgt2 : e0.lastId < r.id
                · have hmem2 : r.id ∈ recoverEmbeddingIDs st := by
                    unfold recoverEmbeddingIDs
                    rw [hE]
                    exact (mem_filterIDsAfter _ _ _).mpr ⟨hmem, hgt2⟩
                  exact hcov1 r.id hmem2
                · have h2 := hj2.2
                  omega
              · have hlow := recoverLowest_le_emb st e0 hE
                have h2 := hj2.2
                omega
        have hCfinal : ∃ c,
            LoadCheckpoint st2 ProcessorTypeConcept = some c ∧
            ∀ r ∈ st.chat, r.id ≤ c.lastId := by
          by_cases hC0 : recoverConceptIDs st = []
          · have hst2 : st2 = st1 := hph2.2.2.2 hC0
            have hpass1 : LoadCheckpoint st1 ProcessorTypeConcept =
                LoadCheckpoint st ProcessorTypeConcept :=
              hph1.2.1 ProcessorTypeConcept conKey_ne_embKey
            cases hC : LoadCheckpoint st ProcessorTypeConcept with
            | none =>
              exfalso
              unfold recoverConceptIDs at hC0
              rw [hC] at hC0
              have h0 : i0 ≤ 0 := filterIDsAfter_eq_nil _ _ hC0 i0 hi0
              have h1 := recoverAllIDs_pos st hpos i0 hi0
              omega
            | some c0 =>
              unfold recoverConceptIDs at hC0
              rw [hC] at hC0
              have hle_all := filterIDsAfter_eq_nil _ _ hC0
              refine ⟨c0, by rw [hst2, hpass1]; exact hC, ?_⟩
              intro r hr
              by_cases hgt : recoverLowest st < r.id
              · exact hle_all r.id (recoverAllIDs_covers st r hr hgt)
              · have hlow := recoverLowest_le_con st c0 hC
                omega
          · obtain ⟨hload2, hcov2⟩ := hph2.2.2.1 hC0
            refine ⟨⟨ProcessorTypeConcept, conLast2, now⟩, hload2, ?_⟩
            intro r hr
            show r.id ≤ conLast2
            cases hC : LoadCheckpoint st ProcessorTypeConcept with
            | none =>
              by_cases hgt : recoverLowest st < r.id
              · have hmem := recoverAllIDs_covers st r hr hgt
                have hmem2 : r.id ∈ recoverConceptIDs st := by
                  unfold recoverConceptIDs
                  rw [hC]
                  exact (mem_filterIDsAfter _ _ _).mpr
                    ⟨hmem, show 0 < r.id by have := hpos r hr; omega⟩
                exact hcov2 r.id hmem2
              · exfalso
                have hl0 := recoverLowest_con_none st hC
                have := hpos r hr
                omega
            | some c0 =>
              obtain ⟨j, hj⟩ := List.exists_mem_of_ne_nil _ hC0
              have hj2 : j ∈ recoverAllIDs st ∧ c0.lastId < j := by
                have hj' := hj
                unfold recoverConceptIDs at hj'
                rw [hC] at hj'
                exact (mem_filterIDsAfter _ _ _).mp hj'
              have hjle := hcov2 j hj
              by_cases hgt : recoverLowest st < r.id
              · have hmem := recoverAllIDs_covers st r hr hgt
                by_cases hgt2 : c0.lastId < r.id
                · have hmem2 : r.id ∈ recoverConceptIDs st := by
                    unfold recoverConceptIDs
                    rw [hC]
                    exact (mem_filterIDsAfter _ _ _).mpr ⟨hmem, hgt2⟩
                  exact hcov2 r.id hmem2
                · have h2 := hj2.2
                  omega
              · have hlow := recoverLowest_le_con st c0 hC
                have h2 := hj2.2
                omega
        obtain ⟨e, he1, he2⟩ := hEfinal
        obtain ⟨c, hc1, hc2⟩ := hCfinal
        exact ⟨e, c, he1, hc1, fun r hr => ⟨he2 r hr, hc2 r hr⟩⟩

theorem recover_ok_trace (embedProc conceptProc : ProcModel)
    (saveOk : Nat → Bool) (st : BadgerState) (res : RecoverResult)
    (hrec : recover embedProc conceptProc saveOk st = some (.ok (), res)) :
    procBatches res.trace =
      chunksOf progressInterval (recoverEmbeddingIDs st) ++
        chunksOf progressInterval (recoverConceptIDs st) ∧
    ckptCount res.trace =
      (chunksOf progressInterval (recoverEmbeddingIDs st)).length +
        (chunksOf progressInterval (recoverConceptIDs st)).length := by
  unfold recover at hrec
  split at hrec
  · rename_i hpend
    simp only [Option.some.injEq, Prod.mk.injEq, true_and] at hrec
    subst hrec
    have hA : recoverAllIDs st = [] := by
      unfold recoverAllIDs
      rw [hpend]
      rfl
    have hE : recoverEmbeddingIDs st = [] := by
      unfold recoverEmbeddingIDs
      rw [hA]
      rfl
    have hC : recoverConceptIDs st = [] := by
      unfold recoverConceptIDs
      rw [hA]
      rfl
    rw [hE, hC]
    exact ⟨rfl, rfl⟩
  · rename_i hpend
    split at hrec
    · simp at hrec
    · simp at hrec
    · rename_i u1 st1 embLast1 ctr1 tr1 heq1
      split at hrec
      · simp at hrec
      · simp at hrec
      · rename_i u2 st2 conLast2 ctr2 tr2 heq2
        simp only [Option.some.injEq, Prod.mk.injEq, true_and] at hrec
        subst hrec
        cases u1
        cases u2
        have h1 : procBatches tr1 =
            chunksOf progressInterval (recoverEmbeddingIDs st) ∧
            ckptCount tr1 =
              (chunksOf progressInterval (recoverEmbeddingIDs st)).length := by
          split at heq1
          · rename_i hids
            simp only [Option.some.injEq, Prod.mk.injEq, true_and] at heq1
            obtain ⟨ha, hb, hc, hd⟩ := heq1
            subst hd
            rw [hids]
            exact ⟨rfl, rfl⟩
          · have ht := processWithProgress_ok_trace embedProc "embeddings"
              saveOk _ _ _ _ _ _ _ _ _ heq1
            refine ⟨?_, ?_⟩
            · rw [ht.1]
              rfl
            · rw [ht.2]
              simp [ckptCount]
        have h2 : procBatches tr2 =
            chunksOf progressInterval (recoverConceptIDs st) ∧
            ckptCount tr2 =
              (chunksOf progressInterval (recoverConceptIDs st)).length := by
          split at heq2
          · rename_i hids
            simp only [Option.some.injEq, Prod.mk.injEq, true_and] at heq2
            obtain ⟨ha, hb, hc, hd⟩ := heq2
            subst hd
            rw [hids]
            exact ⟨rfl, rfl⟩
          · have ht := processWithProgress_ok_trace conceptProc "concepts"
              saveOk _ _ _ _ _ _ _ _ _ heq2
            refine ⟨?_, ?_⟩
            · rw [ht.1]
              rfl
            · rw [ht.2]
              simp [ckptCount]
        constructor
        · show procBatches (tr1 ++ tr2 ++ [TEv.note "recovery complete"]) = _
          rw [procBatches_append, procBatches_append, h1.1, h2.1]
          simp [procBatches]
        · show ckptCount (tr1 ++ tr2 ++ [TEv.note "recovery complete"]) = _
          rw [ckptCount_append, ckptCount_append, h1.2, h2.2]
          simp [ckptCount]

theorem recover_error_trace (embedProc conceptProc : ProcModel)
    (saveOk : Nat → Bool) (st : BadgerState) (e : List PErr)
    (res : RecoverResult)
    (hrec : recover embedProc conceptProc saveOk st =
      some (.error e, res)) :
    ∃ pname batch, (pname = "embeddings" ∨ pname = "concepts") ∧
      res.trace.getLast? = some (.procBatch pname batch (some e)) := by
  unfold recover at hrec
  split at hrec
  · simp at hrec
  · split at hrec
    · simp at hrec
    · rename_i e2 st1 embLast1 ctr1 tr1 heq1
      simp only [Option.some.injEq, Prod.mk.injEq] at hrec
      obtain ⟨h1, h2⟩ := hrec
      injection h1 with h1'
      subst h1'
      subst h2
      split at heq1
      · simp at heq1
      · obtain ⟨batch, tr', hb, htr⟩ :=
          processWithProgress_error_trace embedProc "embeddings" saveOk
            _ _ _ _ _ _ _ _ _ _ heq1
        refine ⟨"embeddings", batch, Or.inl rfl, ?_⟩
        show tr1.getLast? = _
        rw [htr, List.getLast?_concat]
    · rename_i u1 st1 embLast1 ctr1 tr1 heq1
      split at hrec
      · simp at hrec
      · rename_i e2 st2 conLast2 ctr2 tr2 heq2
        simp only [Option.some.injEq, Prod.mk.injEq] at hrec
        obtain ⟨h1, h2⟩ := hrec
        injection h1 with h1'
        subst h1'
        subst h2
        split at heq2
        · simp at heq2
        · obtain ⟨batch, tr', hb, htr⟩ :=
            processWithProgress_error_trace conceptProc "concepts" saveOk
              _ _ _ _ _ _ _ _ _ _ heq2
          refine ⟨"concepts", batch, Or.inr rfl, ?_⟩
          show (tr1 ++ tr2).getLast? = _
          rw [htr, ← List.append_assoc, List.getLast?_concat]
      · simp at hrec

/-- A small concrete store for exercising the recovery pass: one chat
record (id 1) and both checkpoints present with `last_id = 0`. -/
def c2Store : BadgerState :=
  { emptyBadger with
    chat := [⟨1, 1, "m", 0, 0, 0, [], [], []⟩],
    checkpoints :=
      [(makeCheckpointKey ProcessorTypeEmbedding,
        ⟨ProcessorTypeEmbedding, 0, 0⟩),
       (makeCheckpointKey ProcessorTypeConcept,
        ⟨ProcessorTypeConcept, 0, 0⟩)] }

/-- Claim C2, amended: during the pipeline's synchronous recovery pass each
processor's pending ids are processed in batches of `progressInterval = 10`
with `checkpoint()` called once after every batch; a `process` failure
aborts recovery with that error, the failing batch being the final trace
event; a `checkpoint` failure is only logged and recovery continues
(the batch/checkpoint trace shape holds for every `saveOk`).  Amendment:
the claimed floor — both persisted checkpoints' `last_id`s at least the id
of every pre-startup chat record — holds only when every checkpoint save
succeeds; `C2_recover_counterexample` refutes the unconditional
reading. -/
theorem C2_recover_spec
    (embedTexts1 : List String → Except PErr (List (List ℚ)))
    (extract : String → Except PErr (List ExtractedConcept))
    (embedTexts2 : List String → Except PErr (List (List ℚ)))
    (hash : String → Nat) (contextTurns : Nat) (now : Int)
    (saveOk : Nat → Bool) (st : BadgerState)
    (hpos : ∀ r ∈ st.chat, 1 ≤ r.id) :
    (∀ e res,
      recover (embeddingProcModel embedTexts1 now)
        (conceptProcModel extract embedTexts2 hash contextTurns now)
        saveOk st = some (.error e, res) →
      ∃ pname batch, (pname = "embeddings" ∨ pname = "concepts") ∧
        res.trace.getLast? = some (.procBatch pname batch (some e))) ∧
    (∀ res,
      recover (embeddingProcModel embedTexts1 now)
        (conceptProcModel extract embedTexts2 hash contextTurns now)
        saveOk st = some (.ok (), res) →
      procBatches res.trace =
        chunksOf progressInterval (recoverEmbeddingIDs st) ++
          chunksOf progressInterval (recoverConceptIDs st) ∧
      ckptCount res.trace = (procBatches res.trace).length ∧
      (procBatches res.trace).flatten =
        recoverEmbeddingIDs st ++ recoverConceptIDs st ∧
      ∀ c ∈ procBatches res.trace, c ≠ [] ∧ c.length ≤ progressInterval) ∧
    ((∀ n, saveOk n = true) → st.chat ≠ [] →
      ∀ res,
      recover (embeddingProcModel embedTexts1 now)
        (conceptProcModel extract embedTexts2 hash contextTurns now)
        saveOk st = some (.ok (), res) →
      ∃ e c, LoadCheckpoint res.st ProcessorTypeEmbedding = some e ∧
        LoadCheckpoint res.st ProcessorTypeConcept = some c ∧
        ∀ r ∈ st.chat, r.id ≤ e.lastId ∧ r.id ≤ c.lastId) := by
  refine ⟨?_, ?_, ?_⟩
  · intro e res hrec
    exact recover_error_trace _ _ saveOk st e res hrec
  · intro res hrec
    obtain ⟨h1, h2⟩ := recover_ok_trace _ _ saveOk st res hrec
    have hten : 1 ≤ progressInterval := by decide
    refine ⟨h1, ?_, ?_, ?_⟩
    · rw [h2, h1, List.length_append]
    · rw [h1, List.flatten_append,
        chunksOf_flatten progressInterval hten,
        chunksOf_flatten progressInterval hten]
    · intro c hc
      rw [h1] at hc
      rcases List.mem_append.mp hc with h | h
      · exact ⟨chunksOf_ne_nil progressInterval hten _ c h,
          chunksOf_length_le progressInterval hten _ c h⟩
      · exact ⟨chunksOf_ne_nil progressInterval hten _ c h,
          chunksOf_length_le progressInterval hten _ c h⟩
  · intro hall hchat res hrec
    exact recover_ok_checkpoints embedTexts1 extract embedTexts2 hash
      contextTurns now saveOk st res hpos hall hchat hrec

/-- Counterexample to claim C2 as stated: on `c2Store` (one record, id 1,
both checkpoints at `last_id = 0`) with every checkpoint save failing,
recovery processes both phases and returns Ok — failed saves after
successful processing are only logged — yet both persisted checkpoints
still hold `last_id = 0 < 1`, violating the claimed unconditional
`min(checkpoint last_ids) ≥ max pre-startup id`. -/
theorem C2_recover_counterexample :
    ((recover
        (embeddingProcModel
          (fun ts => .ok (ts.map (fun _ => ([] : List ℚ)))) 0)
        (conceptProcModel (fun _ => .ok [])
          (fun ts => .ok (ts.map (fun _ => ([] : List ℚ))))
          (fun _ => 0) 0 0)
        (fun _ => false) c2Store).map
      (fun p => ((match p.1 with | .ok _ => true | .error _ => false),
        (LoadCheckpoint p.2.st ProcessorTypeEmbedding).map Checkpoint.lastId,
        (LoadCheckpoint p.2.st ProcessorTypeConcept).map
          Checkpoint.lastId))) =
      some (true, some 0, some 0) := by
  decide

/-- Concrete application of the amended C2 on `c2Store` with every
checkpoint save succeeding. -/
theorem C2_recover_spec_witness :
    (∀ r ∈ c2Store.chat, 1 ≤ r.id) ∧
    ((∀ e res,
      recover (embeddingProcModel
          (fun ts => .ok (ts.map (fun _ => ([] : List ℚ)))) 0)
        (conceptProcModel (fun _ => .ok [])
          (fun ts => .ok (ts.map (fun _ => ([] : List ℚ))))
          (fun _ => 0) 0 0)
        (fun _ => true) c2Store = some (.error e, res) →
      ∃ pname batch, (pname = "embeddings" ∨ pname = "concepts") ∧
        res.trace.getLast? = some (.procBatch pname batch (some e))) ∧
    (∀ res,
      recover (embeddingProcModel
          (fun ts => .ok (ts.map (fun _ => ([] : List ℚ)))) 0)
        (conceptProcModel (fun _ => .ok [])
          (fun ts => .ok (ts.map (fun _ => ([] : List ℚ))))
          (fun _ => 0) 0 0)
        (fun _ => true) c2Store = some (.ok (), res) →
      procBatches res.trace =
        chunksOf progressInterval (recoverEmbeddingIDs c2Store) ++
          chunksOf progressInterval (recoverConceptIDs c2Store) ∧
      ckptCount res.trace = (procBatches res.trace).length ∧
      (procBatches res.trace).flatten =
        recoverEmbeddingIDs c2Store ++ recoverConceptIDs c2Store ∧
      ∀ c ∈ procBatches res.trace, c ≠ [] ∧ c.length ≤ progressInterval) ∧
    ((∀ _ : Nat, (true : Bool) = true) → c2Store.chat ≠ [] →
      ∀ res,
      recover (embeddingProcModel
          (fun ts => .ok (ts.map (fun _ => ([] : List ℚ)))) 0)
        (conceptProcModel (fun _ => .ok [])
          (fun ts => .ok (ts.map (fun _ => ([] : List ℚ))))
          (fun _ => 0) 0 0)
        (fun _ => true) c2Store = some (.ok (), res) →
      ∃ e c, LoadCheckpoint res.st ProcessorTypeEmbedding = some e ∧
        LoadCheckpoint res.st ProcessorTypeConcept = some c ∧
        ∀ r ∈ c2Store.chat, r.id ≤ e.lastId ∧ r.id ≤ c.lastId)) :=
  ⟨by decide,
    C2_recover_spec (fun ts => .ok (ts.map (fun _ => ([] : List ℚ))))
      (fun _ => .ok []) (fun ts => .ok (ts.map (fun _ => ([] : List ℚ))))
      (fun _ => 0) 0 0 (fun _ => true) c2Store (by decide)⟩

/-! ## Checkpoint monotonicity across the running pipeline (claim C4)

The running pipeline (ingest worker tasks and the recovery pass alike)
drives the two processors through interleavings of processed batches and
`checkpoint()` calls.  `PEv` is one scheduler event; `stepEv` executes it
against the shared store and the processors' in-memory `lastID`s, and
emits the `(processor_type, last_id)` pair exactly when the event is a
checkpoint call whose save is attempted (`lastID ≠ 0`) and succeeds. -/

/-- One scheduler event: a processed id batch for either processor, or a
`checkpoint()` call whose underlying save succeeds (`true`) or fails
(`false`). -/
inductive PEv where
  | embP (ids : List Nat)
  | conP (ids : List Nat)
  | embC (f : Bool)
  | conC (f : Bool)
deriving DecidableEq

/-- Pipeline state: the shared store and each processor's in-memory
`lastID`. -/
structure PipeSt where
  st : BadgerState
  embLast : Nat
  conLast : Nat
deriving DecidableEq

/-- Execute one event; the second component lists the successful
checkpoint saves it performed. -/
def stepEv (embedTexts1 : List String → Except PErr (List (List ℚ)))
    (extract : String → Except PErr (List ExtractedConcept))
    (embedTexts2 : List String → Except PErr (List (List ℚ)))
    (hash : String → Nat) (contextTurns : Nat) (now : Int)
    (ps : PipeSt) : PEv → PipeSt × List (String × Nat)
  | .embP ids =>
    (⟨(embeddingProcess embedTexts1 now ps.st ps.embLast ids).2.1,
      (embeddingProcess embedTexts1 now ps.st ps.embLast ids).2.2,
      ps.conLast⟩, [])
  | .conP ids =>
    (⟨(conceptProcess extract embedTexts2 hash contextTurns now ps.st
        ps.conLast ids).2.1,
      ps.embLast,
      (conceptProcess extract embedTexts2 hash contextTurns now ps.st
        ps.conLast ids).2.2⟩, [])
  | .embC f =>
    (⟨(embeddingCheckpoint f now ps.st ps.embLast).2, ps.embLast,
      ps.conLast⟩,
      if f ∧ ps.embLast ≠ 0 then [(ProcessorTypeEmbedding, ps.embLast)]
      else [])
  | .conC f =>
    (⟨(conceptCheckpoint f now ps.st ps.conLast).2, ps.embLast,
      ps.conLast⟩,
      if f ∧ ps.conLast ≠ 0 then [(ProcessorTypeConcept, ps.conLast)]
      else [])

/-- Run a sequence of events, collecting every successful save in
order. -/
def runEvents (embedTexts1 : List String → Except PErr (List (List ℚ)))
    (extract : String → Except PErr (List ExtractedConcept))
    (embedTexts2 : List String → Except PErr (List (List ℚ)))
    (hash : String → Nat) (contextTurns : Nat) (now : Int)
    (ps : PipeSt) : List PEv → PipeSt × List (String × Nat)
  | [] => (ps, [])
  | ev :: rest =>
    ((runEvents embedTexts1 extract embedTexts2 hash contextTurns now
        (stepEv embedTexts1 extract embedTexts2 hash contextTurns now ps
          ev).1 rest).1,
      (stepEv embedTexts1 extract embedTexts2 hash contextTurns now ps
        ev).2 ++
      (runEvents embedTexts1 extract embedTexts2 hash contextTurns now
        (stepEv embedTexts1 extract embedTexts2 hash contextTurns now ps
          ev).1 rest).2)

/-- The `last_id`s successfully saved for one processor type, in save
order. -/
def savesFor (ptype : String) (saves : List (String × Nat)) : List Nat :=
  (saves.filter (fun e => e.1 = ptype)).map (fun e => e.2)

theorem savesFor_append (ptype : String) (a b : List (String × Nat)) :
    savesFor ptype (a ++ b) = savesFor ptype a ++ savesFor ptype b := by
  unfold savesFor
  rw [List.filter_append, List.map_append]

theorem embeddingProcess_last_mono
    (embedTexts : List String → Except PErr (List (List ℚ)))
    (now : Int) (st : BadgerState) (lastID : Nat) (ids : List Nat) :
    lastID ≤ (embeddingProcess embedTexts now st lastID ids).2.2 := by
  unfold embeddingProcess
  cases embedTexts ((GetChatRecords st (sortIds ids)).map
      (fun r => r.contents)) with
  | error e => exact le_rfl
  | ok embeddings =>
    dsimp only
    split
    · exact le_rfl
    · cases UpdateChatRecords now st
          ((GetChatRecords st (sortIds ids)).zipWith
            (fun r v => { r with vector := v }) embeddings) with
      | mk res st' =>
        cases res with
        | error e => exact le_rfl
        | ok updated =>
          dsimp only
          cases updated.getLast? with
          | none => exact le_rfl
          | some last =>
            dsimp only
            split
            · rename_i hgt
              omega
            · exact le_rfl

theorem runEvents_emb_mono
    (embedTexts1 : List String → Except PErr (List (List ℚ)))
    (extract : String → Except PErr (List ExtractedConcept))
    (embedTexts2 : List String → Except PErr (List (List ℚ)))
    (hash : String → Nat) (contextTurns : Nat) (now : Int) :
    ∀ (evs : List PEv) (ps : PipeSt),
      ps.embLast ≤ (runEvents embedTexts1 extract embedTexts2 hash
        contextTurns now ps evs).1.embLast ∧
      (∀ x ∈ savesFor ProcessorTypeEmbedding
          (runEvents embedTexts1 extract embedTexts2 hash contextTurns now
            ps evs).2,
        ps.embLast ≤ x) ∧
      List.Chain' (· ≤ ·)
        (savesFor ProcessorTypeEmbedding
          (runEvents embedTexts1 extract embedTexts2 hash contextTurns now
            ps evs).2) := by
  intro evs
  induction evs with
  | nil =>
    intro ps
    exact ⟨le_rfl, fun x hx => absurd hx (by simp [savesFor, runEvents]),
      List.chain'_nil⟩
  | cons ev rest ih =>
    intro ps
    simp only [runEvents]
    have hsf := savesFor_append ProcessorTypeEmbedding
      (stepEv embedTexts1 extract embedTexts2 hash contextTurns now ps
        ev).2
      (runEvents embedTexts1 extract embedTexts2 hash contextTurns now
        (stepEv embedTexts1 extract embedTexts2 hash contextTurns now ps
          ev).1 rest).2
    rw [hsf]
    have hih := ih (stepEv embedTexts1 extract embedTexts2 hash
      contextTurns now ps ev).1
    have hstep : ps.embLast ≤
        (stepEv embedTexts1 extract embedTexts2 hash contextTurns now ps
          ev).1.embLast ∧
        ((savesFor ProcessorTypeEmbedding
          (stepEv embedTexts1 extract embedTexts2 hash contextTurns now ps
            ev).2 = []) ∨
         (savesFor ProcessorTypeEmbedding
          (stepEv embedTexts1 extract embedTexts2 hash contextTurns now ps
            ev).2 = [ps.embLast] ∧
          (stepEv embedTexts1 extract embedTexts2 hash contextTurns now ps
            ev).1.embLast = ps.embLast)) := by
      cases ev with
      | embP ids =>
        exact ⟨embeddingProcess_last_mono embedTexts1 now ps.st ps.embLast
          ids, Or.inl rfl⟩
      | conP ids => exact ⟨le_rfl, Or.inl rfl⟩
      | embC f =>
        refine ⟨le_rfl, ?_⟩
        by_cases hc : f ∧ ps.embLast ≠ 0
        · right
          refine ⟨?_, rfl⟩
          show savesFor ProcessorTypeEmbedding
              (if f ∧ ps.embLast ≠ 0 then
                [(ProcessorTypeEmbedding, ps.embLast)] else []) =
            [ps.embLast]
          rw [if_pos hc]
          rfl
        · left
          show savesFor ProcessorTypeEmbedding
              (if f ∧ ps.embLast ≠ 0 then
                [(ProcessorTypeEmbedding, ps.embLast)] else []) = []
          rw [if_neg hc]
          rfl
      | conC f =>
        refine ⟨le_rfl, ?_⟩
        left
        show savesFor ProcessorTypeEmbedding
            (if f ∧ ps.conLast ≠ 0 then
              [(ProcessorTypeConcept, ps.conLast)] else []) = []
        by_cases hc : f ∧ ps.conLast ≠ 0
        · rw [if_pos hc]
          rfl
        · rw [if_neg hc]
          rfl
    refine ⟨le_trans hstep.1 hih.1, ?_, ?_⟩
    · intro x hx
      rcases List.mem_append.mp hx with h1 | h2
      · rcases hstep.2 with hnil | ⟨hone, heq⟩
        · rw [hnil] at h1
          cases h1
        · rw [hone] at h1
          rcases List.mem_singleton.mp h1 with rfl
          exact le_rfl
      · exact le_trans hstep.1 (hih.2.1 x h2)
    · rcases hstep.2 with hnil | ⟨hone, heq⟩
      · rw [hnil, List.nil_append]
        exact hih.2.2
      · rw [hone, List.singleton_append]
        rw [List.chain'_cons']
        refine ⟨?_, hih.2.2⟩
        intro y hy
        have hmem : y ∈ savesFor ProcessorTypeEmbedding
            (runEvents embedTexts1 extract embedTexts2 hash contextTurns
              now (stepEv embedTexts1 extract embedTexts2 hash contextTurns
                now ps ev).1 rest).2 :=
          List.mem_of_mem_head? hy
        have := hih.2.1 y hmem
        rw [heq] at this
        exact this

/-- Claim C4, corrected and amended: the embedding processor guards its
`lastID` update (`if updated_last_id > lastID`), so across every
interleaving of batches and checkpoint calls its successful saves are
monotone non-decreasing.  The concept processor assigns
`lastID = records[len(records)-1].Id` unguarded, so a later batch holding
only smaller ids lowers the persisted `last_id`; `savesFor` of
`ProcessorTypeConcept` is not monotone (see
`C4_checkpoint_counterexample`). -/
theorem C4_embedding_saves_monotone
    (embedTexts1 : List String → Except PErr (List (List ℚ)))
    (extract : String → Except PErr (List ExtractedConcept))
    (embedTexts2 : List String → Except PErr (List (List ℚ)))
    (hash : String → Nat) (contextTurns : Nat) (now : Int)
    (evs : List PEv) (ps : PipeSt) :
    List.Chain' (· ≤ ·)
      (savesFor ProcessorTypeEmbedding
        (runEvents embedTexts1 extract embedTexts2 hash contextTurns now
          ps evs).2) :=
  (runEvents_emb_mono embedTexts1 extract embedTexts2 hash contextTurns
    now evs ps).2.2

/-- A store of four chat records for the C4 counterexample. -/
def c4Store : BadgerState :=
  { emptyBadger with chat :=
      [⟨1, 1, "a", 0, 0, 0, [], [], []⟩,
       ⟨2, 1, "b", 0, 0, 0, [], [], []⟩,
       ⟨3, 1, "c", 0, 0, 0, [], [], []⟩,
       ⟨4, 1, "d", 0, 0, 0, [], [], []⟩] }

/-- Counterexample to claim C4 as stated: the concept processor processes
batch `[3, 4]` (checkpointing 4), then batch `[1, 2]` (checkpointing 2) —
e.g. two worker tasks completing out of order.  Both saves succeed, and
the saved `last_id` sequence `[4, 2]` strictly decreases. -/
theorem C4_checkpoint_counterexample :
    savesFor ProcessorTypeConcept
      (runEvents (fun ts => .ok (ts.map (fun _ => ([] : List ℚ))))
        (fun _ => .ok []) (fun ts => .ok (ts.map (fun _ => ([] : List ℚ))))
        (fun _ => 0) 0 0 ⟨c4Store, 0, 0⟩
        [.conP [3, 4], .conC true, .conP [1, 2], .conC true]).2 = [4, 2] ∧
    ¬ List.Chain' (· ≤ ·) [4, 2] :=
  ⟨by decide, by
    intro h
    have := (List.chain'_cons.mp h).1
    omega⟩

/-! ## Hybrid searcher (search/text.go, unnamed/part_031, claim C1)

`strings.Fields`, `strings.Trim`, `strings.ToLower` and the map-based
word sets are modelled over `List Char` / `List String`; the embedder and
extractor are oracle functions (the claim concerns successful calls, so
their error paths — which return before any result is built — are not
modelled); `core.IDFromContent` is the abstract `hash`.  Go's
`sort.Slice` is unstable; as for claim C6 the model fixes the stable
insertion-sort refinement, which only pins down the order among equal
scores (and the retrieval order of the id-union, which Go leaves to map
iteration order). -/

/-- `strings.Fields`: split on runs of whitespace. -/
def fieldsAux : List Char → List Char → List String
  | [], acc => if acc.isEmpty then [] else [String.mk acc.reverse]
  | c :: rest, acc =>
    if c.isWhitespace then
      if acc.isEmpty then fieldsAux rest []
      else String.mk acc.reverse :: fieldsAux rest []
    else fieldsAux rest (c :: acc)

def goFields (s : String) : List String :=
  fieldsAux s.data []

/-- `strings.Trim`: drop leading and trailing cutset characters. -/
def goTrim (cutset : List Char) (s : String) : String :=
  String.mk
    (((s.data.dropWhile (fun c => cutset.contains c)).reverse.dropWhile
      (fun c => cutset.contains c)).reverse)

/-- `strings.ToLower`, character-wise. -/
def goToLower (s : String) : String :=
  String.mk (s.data.map Char.toLower)

/-- The stop-word set of `search/text.go` (also the glossary's list). -/
def stopWords : List String :=
  ["the", "a", "an", "be", "is", "are", "was", "to", "of", "and", "in",
   "that", "have", "it", "for", "not", "on", "with", "as", "you", "do",
   "at", "this", "but", "by", "from"]

/-- `tokenizeAndFilter`'s pipeline over an explicit punctuation cutset:
split into fields, trim the cutset, lowercase, drop empties and stop
words. -/
def tokenizeWith (cutset : List Char) (text : String) : List String :=
  (goFields text).filterMap (fun w =>
    if goToLower (goTrim cutset w) ≠ "" ∧
        ¬ stopWords.contains (goToLower (goTrim cutset w)) then
      some (goToLower (goTrim cutset w))
    else none)

/-- The cutset of `search/text.go`: `.,!?;:'"-()[]{}` (39 = apostrophe,
34 = double quote, 123/125 = braces).  Note: no em/en dash. -/
def goCutset : List Char :=
  ['.', ',', '!', '?', ';', ':', Char.ofNat 39, Char.ofNat 34, '-',
   '(', ')', '[', ']', Char.ofNat 123, Char.ofNat 125]

/-- `tokenizeAndFilter` as in the source. -/
def tokenizeAndFilter (text : String) : List String :=
  tokenizeWith goCutset text

/-- `containsAllQueryWords`: false when the query has no surviving token,
otherwise membership of every query token among the document's tokens. -/
def containsAllQueryWords (document query : String) : Bool :=
  if (tokenizeAndFilter query).isEmpty then false
  else
    (tokenizeAndFilter query).all
      (fun q => (tokenizeAndFilter document).contains q)

/-- Modelled from the spec (refinement comparison for claim C1): the
glossary's punctuation set `.,!?;:"'()[]{}—–-` — which, unlike the code's
cutset, holds the em and en dashes (8212, 8211). -/
def specCutset : List Char :=
  ['.', ',', '!', '?', ';', ':', Char.ofNat 34, Char.ofNat 39,
   '(', ')', '[', ']', Char.ofNat 123, Char.ofNat 125,
   Char.ofNat 8212, Char.ofNat 8211, '-']

/-- Modelled from the spec (refinement comparison for claim C1): the
claim's bonus condition — "every non-stop-word token of the query appears"
— as written, i.e. as a universal over the query's tokens, vacuously true
when no token survives, over the glossary cutset. -/
def specVerbatim (document query : String) : Bool :=
  (tokenizeWith specCutset query).all
    (fun q => (tokenizeWith specCutset document).contains q)

/-- Ids of the semantic stage (`semanticIds`), with the fixed
`0.60` threshold. -/
def searchSemIds (embedText : String → List ℚ) (st : BadgerState)
    (query : String) (maxHits : Nat) : List Nat :=
  (FindSimilar st (embedText query) (3/5) maxHits).map (fun p => p.1.id)

/-- Stage 2 of the searcher: hash each extracted tuple and keep the
concepts that exist (lookup errors and absences are skipped). -/
def searchQueryConcepts (hash : String → Nat) (st : BadgerState)
    (extracted : List ExtractedConcept) : List Concept :=
  extracted.filterMap (fun ec =>
    readConcept st (hash ("(" ++ ec.type ++ "," ++ ec.name ++ ")")))

/-- `GetChatRecordsByConcept`: the record ids indexed under one concept
id. -/
def GetChatRecordsByConcept (st : BadgerState) (conceptID : Nat) :
    List Nat :=
  (st.conceptIdx.filter (fun e => e.1 = conceptID)).map (fun e => e.2)

/-- Stage 3: union of the per-concept record ids (`conceptualSet`). -/
def searchConIds (extract : String → List ExtractedConcept)
    (hash : String → Nat) (st : BadgerState) (query : String) : List Nat :=
  ((searchQueryConcepts hash st (extract query)).map
    (fun c => GetChatRecordsByConcept st c.id)).flatten

/-- First-appearance deduplication of the id union (Go collects `allIds`
in a map and iterates it; the model fixes first-appearance order). -/
def dedupIds (l : List Nat) : List Nat :=
  l.foldl (fun acc x => if acc.contains x then acc else acc ++ [x]) []

/-- `semanticScores[id]` (Go map read; 0 is the zero value for ids outside
the semantic set, which the code never reads). -/
def semanticScoreOf (ms : List (ChatRecord × ℚ)) (id : Nat) : ℚ :=
  match ms.find? (fun p => p.1.id = id) with
  | some p => p.2
  | none => 0

/-- The base score of stage 5: `1.5 ×` similarity in both sets, flat
`1.2` conceptual-only, `1.0 ×` similarity semantic-only. -/
def searchBaseOf (ms : List (ChatRecord × ℚ))
    (semIds conIds : List Nat) (id : Nat) : ℚ :=
  if semIds.contains id ∧ conIds.contains id then
    3/2 * semanticScoreOf ms id
  else if conIds.contains id then 6/5
  else semanticScoreOf ms id

/-- `Searcher.FindSimilarWithMonitor` (successful path): semantic scan at
threshold `0.60`, concept extraction and lookup, conceptual id union,
batch retrieval of the deduplicated union (Go iterates a map; the model
fixes first-appearance order), scoring with the `+0.3` verbatim bonus via
`containsAllQueryWords`, descending stable sort, truncation to
`maxHits`. -/
def search (embedText : String → List ℚ)
    (extract : String → List ExtractedConcept) (hash : String → Nat)
    (st : BadgerState) (query : String) (maxHits : Nat) :
    List (ChatRecord × ℚ) :=
  if dedupIds (searchSemIds embedText st query maxHits ++
      searchConIds extract hash st query) = [] then []
  else
    (((GetChatRecords st
        (dedupIds (searchSemIds embedText st query maxHits ++
          searchConIds extract hash st query))).map (fun r =>
      (r, if containsAllQueryWords r.contents query then
            searchBaseOf (FindSimilar st (embedText query) (3/5) maxHits)
              (searchSemIds embedText st query maxHits)
              (searchConIds extract hash st query) r.id + 3/10
          else
            searchBaseOf (FindSimilar st (embedText query) (3/5) maxHits)
              (searchSemIds embedText st query maxHits)
              (searchConIds extract hash st query) r.id))).insertionSort
        byScoreDesc).take maxHits

/-- Claim C1, amended: every returned result's score is the claimed base
(1.5 × similarity when in both sets, flat 1.2 conceptual-only, similarity
semantic-only) plus a `+0.3` bonus governed by the code's
`containsAllQueryWords` — which strips the code's cutset (no em/en
dashes) and returns `false` (never awarding the bonus) when no query
token survives stop-word filtering, instead of the claim's vacuously-true
universal over the glossary cutset (refuted by
`C1_search_counterexample`); the sequence is sorted by final score
descending (stable refinement of Go's unstable `sort.Slice`) and
truncated to `max_hits`. -/
theorem C1_search_spec (embedText : String → List ℚ)
    (extract : String → List ExtractedConcept) (hash : String → Nat)
    (st : BadgerState) (query : String) (maxHits : Nat) :
    (∀ p ∈ search embedText extract hash st query maxHits,
      p.2 = searchBaseOf (FindSimilar st (embedText query) (3/5) maxHits)
          (searchSemIds embedText st query maxHits)
          (searchConIds extract hash st query) p.1.id +
        (if containsAllQueryWords p.1.contents query then 3/10 else 0)) ∧
    (search embedText extract hash st query maxHits).Sorted byScoreDesc ∧
    (search embedText extract hash st query maxHits).length ≤ maxHits := by
  refine ⟨?_, ?_, ?_⟩
  · intro p hp
    unfold search at hp
    split at hp
    · cases hp
    · have h1 := (List.mem_insertionSort byScoreDesc).mp
        (List.mem_of_mem_take hp)
      obtain ⟨r, hr, hpr⟩ := List.mem_map.mp h1
      subst hpr
      dsimp only
      by_cases hv : containsAllQueryWords r.contents query = true
      · rw [if_pos hv, if_pos hv]
      · rw [if_neg hv, if_neg hv, add_zero]
  · unfold search
    split
    · exact List.sorted_nil
    · exact List.Pairwise.sublist (List.take_sublist _ _)
        (List.sorted_insertionSort byScoreDesc _)
  · unfold search
    split
    · exact Nat.zero_le _
    · rw [List.length_take]
      exact min_le_left _ _

/-- A store of one chat record whose vector scores `0.9` against the
query embedding `[1]`. -/
def c1Store : BadgerState :=
  { emptyBadger with
    chat := [⟨1, 1, "hello", 0, 0, 0, [], [(9 : ℚ)/10], []⟩] }

/-- Counterexample to claim C1 as stated: for the query `"the"` every
token is a stop word, so the claim's bonus condition — "every non-stop-word
token of the query appears ..." — holds vacuously (`specVerbatim = true`)
and the claim demands score `0.9 + 0.3`; the code's
`containsAllQueryWords` instead returns `false` on a query with no
surviving token, and `search` returns the record with score `0.9`. -/
theorem C1_search_counterexample :
    search (fun _ => [(1 : ℚ)]) (fun _ => []) (fun _ => 0) c1Store "the"
        5 =
      [(⟨1, 1, "hello", 0, 0, 0, [], [(9 : ℚ)/10], []⟩, (9 : ℚ)/10)] ∧
    specVerbatim "hello" "the" = true ∧
    containsAllQueryWords "hello" "the" = false ∧
    ((9 : ℚ)/10 ≠ 9/10 + 3/10) := by
  refine ⟨?_, by decide, by decide, by norm_num⟩
  have hfs : FindSimilar c1Store [(1 : ℚ)] (3/5) 5 =
      [(⟨1, 1, "hello", 0, 0, 0, [], [(9 : ℚ)/10], []⟩, (9 : ℚ)/10)] := by
    norm_num [FindSimilar, c1Store, emptyBadger, dotProduct,
      List.filterMap_cons, List.insertionSort, List.orderedInsert]
  have hsem : searchSemIds (fun _ => [(1 : ℚ)]) c1Store "the" 5 = [1] := by
    rw [searchSemIds, hfs]
    rfl
  have hcon : searchConIds (fun _ => []) (fun _ => 0) c1Store "the" =
      [] := rfl
  have hcaqw : containsAllQueryWords "hello" "the" = false := by decide
  unfold search
  rw [hsem, hcon, hfs]
  norm_num [GetChatRecords, readChatRecord, c1Store, emptyBadger,
    searchBaseOf, semanticScoreOf, dedupIds, List.insertionSort,
    List.orderedInsert, List.find?_cons, hcaqw, List.contains_cons,
    List.foldl_cons, List.foldl_nil]

end Memorit
